import Mathlib

/-!
Verification of the multi-queue round-robin dispatcher (`src/scheduler.py`).

The Python source is shallowly embedded: the circular-buffer queue `QueueRR`
and the `Scheduler` class become Lean structures; Python dicts become
association lists with first-occurrence lookup/update (matching dict
insertion-order semantics for the operations the source performs);
Python ints become `Int` (or `Nat` where the source value is provably
non-negative by construction, e.g. sizes and indices); the possibly
non-terminating `run` loop is embedded with explicit fuel, returning a
flag that is `true` exactly when the loop exited through one of the
source's `break`/`return` paths rather than by fuel exhaustion.
-/

set_option maxHeartbeats 1600000
set_option maxRecDepth 8000

namespace Sched

/-- `Task` from the source: a task id and the mutable remaining burst. -/
structure Task where
  task_id : String
  remaining : Int
deriving DecidableEq, Repr

/-- The fixed menu `REQUIRED_MENU` from the source, in its insertion order. -/
def REQUIRED_MENU : List (String × Nat) :=
  [("americano", 2), ("latte", 3), ("cappuccino", 3), ("mocha", 4),
   ("tea", 1), ("macchiato", 2), ("hot_chocolate", 4)]

/-- First-occurrence lookup in an association list (Python `d[k]` / `k in d`). -/
def alookup {α : Type} : List (String × α) → String → Option α
  | [], _ => none
  | (k, v) :: rest, key => if k = key then some v else alookup rest key

/-- First-occurrence update, appending when the key is absent
(Python `d[k] = v` keeps the key position, inserts new keys at the end). -/
def aset {α : Type} : List (String × α) → String → α → List (String × α)
  | [], key, v => [(key, v)]
  | (k, w) :: rest, key, v =>
    if k = key then (key, v) :: rest else (k, w) :: aset rest key v

/-- `QueueRR` from the source: fixed-capacity circular buffer. -/
structure QueueRR where
  queue_id : String
  capacity : Nat
  buf : List (Option Task)
  front : Nat
  size : Nat
deriving DecidableEq, Repr

/-- `QueueRR.__init__` (the source asserts `capacity > 0`; callers of this
definition that model real executions carry that hypothesis). -/
def QueueRR.mkEmpty (queue_id : String) (capacity : Nat) : QueueRR :=
  ⟨queue_id, capacity, List.replicate capacity none, 0, 0⟩

/-- `QueueRR.enqueue`: fails (returns `false`) when full, else writes the
slot `(front + size) % capacity` and bumps `size`. -/
def QueueRR.enqueue (q : QueueRR) (t : Task) : QueueRR × Bool :=
  if q.size ≥ q.capacity then (q, false)
  else
    ({ q with
       buf := q.buf.set ((q.front + q.size) % q.capacity) (some t),
       size := q.size + 1 },
     true)

/-- `QueueRR.dequeue`: returns `none` when empty, else clears and returns the
front slot and advances `front` modulo `capacity`. -/
def QueueRR.dequeue (q : QueueRR) : QueueRR × Option Task :=
  if q.size = 0 then (q, none)
  else
    ({ q with
       buf := q.buf.set q.front none,
       front := (q.front + 1) % q.capacity,
       size := q.size - 1 },
     q.buf.getD q.front none)

/-- `QueueRR.peek`. -/
def QueueRR.peek (q : QueueRR) : Option Task :=
  if q.size = 0 then none else q.buf.getD q.front none

/-- In-place mutation of the task object returned by `peek`
(`front_task.remaining -= w` writes through to the front buffer slot). -/
def QueueRR.setFront (q : QueueRR) (t : Task) : QueueRR :=
  {q with buf := q.buf.set q.front (some t)}

/-- `QueueRR.tasks_list`: the `size` slots starting at `front`, in order,
keeping only the occupied ones (the source skips `None` slots). -/
def QueueRR.tasks_list (q : QueueRR) : List Task :=
  (List.range q.size).filterMap (fun i => q.buf.getD ((q.front + i) % q.capacity) none)

/-- The `Scheduler` state. -/
structure Scheduler where
  time : Int
  queues : List (String × QueueRR)
  queue_order : List String
  id_counters : List (String × Nat)
  skip_flags : List (String × Bool)
  rr_index : Nat
  menu : List (String × Nat)
deriving DecidableEq, Repr

/-- `Scheduler.__init__`. -/
def Scheduler.init : Scheduler := ⟨0, [], [], [], [], 0, REQUIRED_MENU⟩

/-- `self.queues[qid]`; the default is never used on states where every id in
play has been registered (the source would raise `KeyError` instead). -/
def getQ (s : Scheduler) (qid : String) : QueueRR :=
  (alookup s.queues qid).getD (QueueRR.mkEmpty qid 0)

/-- `Scheduler.next_queue` as a value: the source normalizes `rr_index` into
range before indexing (the write-back is the identity on every state with
`rr_index` already in range, which the reachability invariant guarantees). -/
def Scheduler.next_queue_val (s : Scheduler) : Option String :=
  match s.queue_order with
  | [] => none
  | _ :: _ =>
    let n := s.queue_order.length
    let i := if s.rr_index ≥ n then s.rr_index % n else s.rr_index
    some (s.queue_order.getD i "")

/-- `%03d` zero-padding used for task ids. -/
def pad3 (n : Nat) : String :=
  if n < 10 then "00" ++ toString n
  else if n < 100 then "0" ++ toString n
  else toString n

/-- Lexicographic comparison of character lists by code point (Python's
string `<`). -/
def listCharLt : List Char → List Char → Bool
  | [], [] => false
  | [], _ :: _ => true
  | _ :: _, [] => false
  | a :: as, b :: bs =>
    if a.toNat < b.toNat then true
    else if b.toNat < a.toNat then false
    else listCharLt as bs

/-- Python's string `<` on the underlying characters. -/
def strLt (a b : String) : Bool := listCharLt a.data b.data

/-- Insertion step for sorting the menu by item name (Python `sorted`). -/
def menuInsert (p : String × Nat) : List (String × Nat) → List (String × Nat)
  | [] => [p]
  | q :: rest => if strLt p.1 q.1 then p :: q :: rest else q :: menuInsert p rest

/-- Sort the menu entries by item name (Python `sorted(self._menu.items())`;
keys are distinct so the tuple order is the key order). -/
def menuSorted : List (String × Nat) → List (String × Nat)
  | [] => []
  | p :: rest => menuInsert p (menuSorted rest)

/-- `Scheduler.display`. -/
def Scheduler.display (s : Scheduler) : List String :=
  let nv := match s.next_queue_val with
            | some q => q
            | none => "None"
  let t := s.time
  let menuStr := String.intercalate ","
    ((menuSorted s.menu).map (fun p =>
      let k := p.1
      let v := p.2
      s!"{k}:{v}"))
  let qlines := s.queue_order.map (fun qid =>
    let q := getQ s qid
    let skipText := if (alookup s.skip_flags qid).getD false then " skip" else ""
    let tasksText := String.intercalate ","
      (q.tasks_list.map (fun tk =>
        let i := tk.task_id
        let r := tk.remaining
        s!"{i}:{r}"))
    let sz := q.size
    let cap := q.capacity
    s!"display {qid} [{sz}/{cap}]{skipText} -> [{tasksText}]")
  s!"display time={t} next={nv}" :: s!"display menu=[{menuStr}]" :: qlines

/-- `Scheduler.create_queue` (the queue constructor asserts `0 < capacity`;
real executions carry that as a hypothesis). -/
def Scheduler.create_queue (s : Scheduler) (queue_id : String) (capacity : Nat) :
    Scheduler × List String :=
  let t := s.time
  ({ s with
     queues := aset s.queues queue_id (QueueRR.mkEmpty queue_id capacity),
     queue_order := s.queue_order ++ [queue_id],
     id_counters := aset s.id_counters queue_id 0,
     skip_flags := aset s.skip_flags queue_id false },
   [s!"time={t} event=create queue={queue_id}"])

/-- `Scheduler.enqueue` (admission). Note the source increments the id
counter before the capacity check, so a `full` rejection keeps the bump. -/
def Scheduler.enqueue (s : Scheduler) (queue_id : String) (item_name : String) :
    Scheduler × List String :=
  let t := s.time
  match alookup s.menu item_name with
  | none => (s, [s!"time={t} event=reject queue={queue_id} reason=unknown_item"])
  | some burst =>
    if (alookup s.queues queue_id).isSome then
      let c := (alookup s.id_counters queue_id).getD 0 + 1
      let s1 := {s with id_counters := aset s.id_counters queue_id c}
      let tid := queue_id ++ "-" ++ pad3 c
      let task : Task := ⟨tid, (burst : Int)⟩
      let r := (getQ s queue_id).enqueue task
      if r.2 then
        ({s1 with queues := aset s1.queues queue_id r.1},
         [s!"time={t} event=enqueue queue={queue_id} task={tid} remaining={burst}"])
      else
        (s1, [s!"time={t} event=reject queue={queue_id} reason=full"])
    else
      (s, [s!"time={t} event=reject queue={queue_id} reason=unknown_queue"])

/-- `Scheduler.mark_skip`. -/
def Scheduler.mark_skip (s : Scheduler) (queue_id : String) : Scheduler × List String :=
  let t := s.time
  let logs := [s!"time={t} event=skip queue={queue_id}"]
  if (alookup s.skip_flags queue_id).isSome then
    ({s with skip_flags := aset s.skip_flags queue_id true}, logs)
  else
    (s, logs)

/-- The quiescence test of the run loop: all queues empty and all skip-flag
entries clear. -/
def Scheduler.quiescent (s : Scheduler) : Bool :=
  s.queue_order.all (fun qx => (getQ s qx).size == 0) &&
  s.skip_flags.all (fun p => !p.2)

/-- The source's cursor normalization (`if rr_index >= n: rr_index %= n`),
also performed before the loop (line 181) and at the top of every turn
(lines 196-197). -/
def normRR (s : Scheduler) : Scheduler :=
  if s.rr_index ≥ s.queue_order.length then
    {s with rr_index := s.rr_index % s.queue_order.length}
  else s

/-- The body of one turn after cursor normalization: visit the queue at
the cursor, branch on skip / empty / work, advance the cursor, emit logs.
In the skip and empty branches the snapshot is taken before the cursor
advances; in the work branch the cursor advances first, as in the source.
The `none` match arms model the source's `assert`s on values that cannot
be `None` for well-formed buffers; they are unreachable from real states. -/
def Scheduler.turnAux (s : Scheduler) (quantum : Int) : Scheduler × List String :=
  let n := s.queue_order.length
  let qid := s.queue_order.getD s.rr_index ""
  let q := getQ s qid
  let t0 := s.time
  let runLog := s!"time={t0} event=run queue={qid}"
  if (alookup s.skip_flags qid).getD false then
    let s1 := {s with skip_flags := aset s.skip_flags qid false}
    let d := s1.display
    ({s1 with rr_index := (s1.rr_index + 1) % n}, runLog :: d)
  else if q.size = 0 then
    let d := s.display
    ({s with rr_index := (s.rr_index + 1) % n}, runLog :: d)
  else
    match q.peek with
    | none => (s, [runLog])
    | some front =>
      let w := min quantum front.remaining
      let rem : Int := front.remaining - w
      let q1 := q.setFront {front with remaining := rem}
      let s1 := {s with time := s.time + w, queues := aset s.queues qid q1}
      let t1 := s1.time
      if rem = 0 then
        let r := q1.dequeue
        match r.2 with
        | none => (s1, [runLog])
        | some fin =>
          let fid := fin.task_id
          let s2 := { s1 with
                      queues := aset s1.queues qid r.1,
                      rr_index := (s1.rr_index + 1) % n }
          (s2, runLog :: s!"time={t1} event=finish queue={qid} id={fid}" :: s2.display)
      else
        let r := q1.dequeue
        match r.2 with
        | none => (s1, [runLog])
        | some tk =>
          let e := r.1.enqueue tk
          if e.2 then
            let s2 := { s1 with
                        queues := aset s1.queues qid e.1,
                        rr_index := (s1.rr_index + 1) % n }
            let i := tk.task_id
            let rr := tk.remaining
            (s2, runLog :: s!"time={t1} event=work queue={qid} id={i} remaining={rr}" :: s2.display)
          else
            let s2 := { s1 with
                        queues := aset s1.queues qid r.1,
                        rr_index := (s1.rr_index + 1) % n }
            let i := tk.task_id
            (s2, runLog :: s!"time={t1} event=finish queue={qid} id={i}" :: s2.display)

/-- One iteration body of the `while True` loop of `Scheduler.run`
(lines 194-264 of the source): guard `rr_index`, then run the turn body. -/
def Scheduler.doTurn (s : Scheduler) (quantum : Int) : Scheduler × List String :=
  (normRR s).turnAux quantum

/-- The `while True` loop of `Scheduler.run`, with fuel. `maxTurns` is the
remaining turn budget (`steps - turns_done`); `none` means run to
quiescence. The boolean is `true` when the loop exited through a source
`break` and `false` when the fuel ran out first. -/
def runLoop (quantum : Int) (maxTurns : Option Nat) :
    Nat → Scheduler → Scheduler × List String × Bool
  | 0, s => (s, [], false)
  | fuel + 1, s =>
    if maxTurns = some 0 then (s, [], true)
    else if s.queue_order.length = 0 then (s, [], true)
    else
      let r := s.doTurn quantum
      if maxTurns = none && r.1.quiescent then (r.1, r.2, true)
      else
        let rest := runLoop quantum (Option.map (fun m => m - 1) maxTurns) fuel r.1
        (rest.1, r.2 ++ rest.2.1, rest.2.2)


/-- `Scheduler.run`. Zero queues: return immediately. Given `steps`: validate
`1 ≤ steps ≤ n` first (before any state change), else loop. -/
def Scheduler.run (s : Scheduler) (quantum : Int) (steps : Option Int) (fuel : Nat) :
    Scheduler × List String × Bool :=
  let n := s.queue_order.length
  if n = 0 then (s, [], true)
  else
    match steps with
    | some st =>
      if 1 ≤ st ∧ st ≤ (n : Int) then
        runLoop quantum (some st.toNat) fuel (normRR s)
      else
        let t := s.time
        (s, [s!"time={t} event=error reason=invalid_steps"], true)
    | none => runLoop quantum none fuel (normRR s)

/-- `k` successive loop iterations, collecting states and logs; the reference
against which `runLoop` is measured ("`k` completed turns"). -/
def iterTurns (quantum : Int) : Nat → Scheduler → Scheduler × List String
  | 0, s => (s, [])
  | k + 1, s =>
    let r := s.doTurn quantum
    let rest := iterTurns quantum k r.1
    (rest.1, r.2 ++ rest.2)

/-- Structural well-formedness of a circular buffer: positive capacity,
buffer length equal to capacity, `front` in range, occupancy within
capacity, and the `size` window slots occupied. -/
def BufWF (q : QueueRR) : Prop :=
  0 < q.capacity ∧ q.buf.length = q.capacity ∧ q.front < q.capacity ∧
  q.size ≤ q.capacity ∧
  (∀ i, i < q.size → ((q.buf.getD ((q.front + i) % q.capacity) none).isSome = true))

/-- Full queue well-formedness: structural, and every queued task has a
positive remaining burst. -/
def QueueWF (q : QueueRR) : Prop :=
  BufWF q ∧ (∀ t ∈ q.tasks_list, 1 ≤ t.remaining)

/-- The scheduler invariant: every id in the round-robin order is registered
in all three per-queue maps, every registered queue is in the order and
well-formed, skip-flag keys come from the order, and the cursor is in range
whenever there is a queue. -/
def SInv (s : Scheduler) : Prop :=
  (∀ qid ∈ s.queue_order,
     (alookup s.queues qid).isSome = true ∧
     (alookup s.id_counters qid).isSome = true ∧
     (alookup s.skip_flags qid).isSome = true) ∧
  (∀ p ∈ s.queues, p.1 ∈ s.queue_order ∧ QueueWF p.2) ∧
  (∀ p ∈ s.skip_flags, p.1 ∈ s.queue_order) ∧
  (s.queue_order ≠ [] → s.rr_index < s.queue_order.length) ∧
  (s.queue_order = [] → s.rr_index = 0) ∧
  s.menu = REQUIRED_MENU ∧
  (s.queues.map Prod.fst).Nodup ∧
  (s.skip_flags.map Prod.fst).Nodup

instance (q : QueueRR) : Decidable (BufWF q) := by
  unfold BufWF
  infer_instance

instance (q : QueueRR) : Decidable (QueueWF q) := by
  unfold QueueWF
  infer_instance

instance (s : Scheduler) : Decidable (SInv s) := by
  unfold SInv
  infer_instance

/-- States reachable by the public operations (with the source's asserted
precondition `0 < capacity` on queue creation; `fuel` truncation also yields
every intermediate state of a running `run`, so "at all times" includes
mid-run states). -/
inductive Reach : Scheduler → Prop where
  | init : Reach Scheduler.init
  | create {s} (qid : String) (cap : Nat) : Reach s → 0 < cap →
      Reach (s.create_queue qid cap).1
  | enq {s} (qid item : String) : Reach s → Reach (s.enqueue qid item).1
  | skip {s} (qid : String) : Reach s → Reach (s.mark_skip qid).1
  | runs {s} (quantum : Int) (steps : Option Int) (fuel : Nat) : Reach s →
      Reach (s.run quantum steps fuel).1

/-- Reachability when every `run` is called with a non-negative quantum. -/
inductive ReachNN : Scheduler → Prop where
  | init : ReachNN Scheduler.init
  | create {s} (qid : String) (cap : Nat) : ReachNN s → 0 < cap →
      ReachNN (s.create_queue qid cap).1
  | enq {s} (qid item : String) : ReachNN s → ReachNN (s.enqueue qid item).1
  | skip {s} (qid : String) : ReachNN s → ReachNN (s.mark_skip qid).1
  | runs {s} (quantum : Int) (steps : Option Int) (fuel : Nat) : ReachNN s →
      0 ≤ quantum → ReachNN (s.run quantum steps fuel).1

/-! ### Association-list lemmas -/

theorem alookup_aset_self {α : Type} (l : List (String × α)) (k : String) (v : α) :
    alookup (aset l k v) k = some v := by
  induction l with
  | nil => simp [aset, alookup]
  | cons p rest ih =>
    obtain ⟨k1, v1⟩ := p
    by_cases h : k1 = k
    · simp [aset, alookup, h]
    · simp [aset, alookup, h, ih]

theorem alookup_aset_ne {α : Type} (l : List (String × α)) (k k1 : String) (v : α)
    (h : k ≠ k1) : alookup (aset l k v) k1 = alookup l k1 := by
  induction l with
  | nil => simp [aset, alookup, h]
  | cons p rest ih =>
    obtain ⟨k2, v2⟩ := p
    by_cases h2 : k2 = k
    · subst h2
      simp [aset, alookup, h]
    · simp [aset, alookup, h2, ih]

theorem alookup_mem {α : Type} {l : List (String × α)} {k : String} {v : α}
    (h : alookup l k = some v) : (k, v) ∈ l := by
  induction l with
  | nil => simp [alookup] at h
  | cons p rest ih =>
    obtain ⟨k1, v1⟩ := p
    by_cases h1 : k1 = k
    · subst h1
      simp [alookup] at h
      simp [h]
    · simp [alookup, h1] at h
      exact List.mem_cons_of_mem _ (ih h)

theorem mem_aset {α : Type} {l : List (String × α)} {k : String} {v : α} {p : String × α}
    (h : p ∈ aset l k v) : p = (k, v) ∨ p ∈ l := by
  induction l with
  | nil => simpa [aset] using h
  | cons q rest ih =>
    obtain ⟨k1, v1⟩ := q
    by_cases h1 : k1 = k
    · simp [aset, h1] at h
      rcases h with h | h
      · exact Or.inl h
      · exact Or.inr (List.mem_cons_of_mem _ h)
    · simp [aset, h1] at h
      rcases h with h | h
      · exact Or.inr (by simp [h])
      · rcases ih h with h2 | h2
        · exact Or.inl h2
        · exact Or.inr (List.mem_cons_of_mem _ h2)

theorem keys_aset_mem {α : Type} {l : List (String × α)} {k a : String} {v : α}
    (h : a ∈ (aset l k v).map Prod.fst) : a = k ∨ a ∈ l.map Prod.fst := by
  obtain ⟨p, hp, hpa⟩ := List.mem_map.mp h
  rcases mem_aset hp with hp | hp
  · subst hp
    exact Or.inl hpa.symm
  · exact Or.inr (List.mem_map.mpr ⟨p, hp, hpa⟩)

theorem nodup_keys_aset {α : Type} {l : List (String × α)} {k : String} {v : α}
    (h : (l.map Prod.fst).Nodup) : ((aset l k v).map Prod.fst).Nodup := by
  induction l with
  | nil => simp [aset]
  | cons p rest ih =>
    obtain ⟨k1, v1⟩ := p
    simp only [List.map_cons, List.nodup_cons] at h
    by_cases he : k1 = k
    · subst he
      simpa [aset] using h
    · simp only [aset, if_neg he, List.map_cons, List.nodup_cons]
      refine ⟨?_, ih h.2⟩
      intro hc
      rcases keys_aset_mem hc with hc | hc
      · exact he hc
      · exact h.1 hc

theorem countP_aset_false {l : List (String × Bool)} {k : String}
    (h : alookup l k = some true) :
    (aset l k false).countP (fun p => p.2) + 1 = l.countP (fun p => p.2) := by
  induction l with
  | nil => simp [alookup] at h
  | cons p rest ih =>
    obtain ⟨k1, v1⟩ := p
    by_cases h1 : k1 = k
    · subst h1
      simp [alookup] at h
      subst h
      simp [aset, List.countP_cons]
    · simp [alookup, h1] at h
      simp [aset, h1, List.countP_cons]
      have := ih h
      omega

theorem sum_aset {α : Type} (g : α → Nat) {l : List (String × α)} {k : String} {v0 : α}
    (v1 : α) (h : alookup l k = some v0) :
    ((aset l k v1).map (fun p => g p.2)).sum + g v0 = (l.map (fun p => g p.2)).sum + g v1 := by
  induction l with
  | nil => simp [alookup] at h
  | cons p rest ih =>
    obtain ⟨k2, v2⟩ := p
    by_cases h2 : k2 = k
    · subst h2
      simp [alookup] at h
      subst h
      simp [aset]
      omega
    · simp [alookup, h2] at h
      have := ih h
      simp [aset, h2]
      omega

/-! ### Modular-index lemmas -/

theorem modInj {n f a b : Nat} (ha : a < n) (hb : b < n)
    (h : (f + a) % n = (f + b) % n) : a = b := by
  have h2 : a % n = b % n := Nat.ModEq.add_left_cancel' f h
  rw [Nat.mod_eq_of_lt ha, Nat.mod_eq_of_lt hb] at h2
  exact h2

/-! ### Circular-buffer lemmas -/

theorem tasks_list_def (q : QueueRR) :
    q.tasks_list =
      (List.range q.size).filterMap (fun i => q.buf.getD ((q.front + i) % q.capacity) none) :=
  rfl

theorem getD_set_self {α : Type} {l : List α} {i : Nat} (hi : i < l.length) (a d : α) :
    (l.set i a).getD i d = a := by
  simp [List.getD_eq_getElem?_getD, List.getElem?_set_self hi]

theorem getD_set_ne {α : Type} {l : List α} {i j : Nat} (h : i ≠ j) (a d : α) :
    (l.set i a).getD j d = l.getD j d := by
  simp [List.getD_eq_getElem?_getD, List.getElem?_set_ne h]

theorem front_slot_some {q : QueueRR} (h : BufWF q) (hs : q.size ≠ 0) :
    ∃ t, q.buf.getD q.front none = some t := by
  obtain ⟨hcap, hlen, hfront, hsize, hwin⟩ := h
  have h0 := hwin 0 (Nat.pos_of_ne_zero hs)
  rw [Nat.add_zero, Nat.mod_eq_of_lt hfront] at h0
  exact Option.isSome_iff_exists.mp h0

theorem peek_eq_front {q : QueueRR} (hs : q.size ≠ 0) :
    q.peek = q.buf.getD q.front none := by
  simp [QueueRR.peek, hs]

/-- A slot `(front + j) % capacity` with `0 < j < capacity` is distinct from
the front slot. -/
theorem slot_ne_front {q : QueueRR} (hfront : q.front < q.capacity) {j : Nat}
    (hj0 : j ≠ 0) (hj : j < q.capacity) :
    (q.front + j) % q.capacity ≠ q.front := by
  intro hcontra
  have h0 : (q.front + j) % q.capacity = (q.front + 0) % q.capacity := by
    rw [hcontra, Nat.add_zero, Nat.mod_eq_of_lt hfront]
  exact hj0 (modInj hj (Nat.pos_of_ne_zero (by omega)) h0)

/-- `dequeue` on a non-empty well-formed queue: returns the front task, shrinks
the occupancy by one, and drops exactly the head of the ordered task list. -/
theorem dequeue_spec {q : QueueRR} (h : BufWF q) (hs : q.size ≠ 0) :
    ∃ t, q.buf.getD q.front none = some t ∧
      q.peek = some t ∧
      (q.dequeue).2 = some t ∧
      (q.dequeue).1.size = q.size - 1 ∧
      (q.dequeue).1.capacity = q.capacity ∧
      q.tasks_list = t :: (q.dequeue).1.tasks_list ∧
      BufWF (q.dequeue).1 := by
  obtain ⟨t, ht⟩ := front_slot_some h hs
  obtain ⟨hcap, hlen, hfront, hsize, hwin⟩ := h
  have hqs : (q.dequeue).1.size = q.size - 1 := by simp [QueueRR.dequeue, hs]
  have hqc : (q.dequeue).1.capacity = q.capacity := by simp [QueueRR.dequeue, hs]
  have hqf : (q.dequeue).1.front = (q.front + 1) % q.capacity := by
    simp [QueueRR.dequeue, hs]
  have hqb : (q.dequeue).1.buf = q.buf.set q.front none := by
    simp [QueueRR.dequeue, hs]
  have hshift : ∀ i, i + 1 < q.size →
      ((q.dequeue).1.buf.getD (((q.dequeue).1.front + i) % (q.dequeue).1.capacity) none) =
        (q.buf.getD ((q.front + (i + 1)) % q.capacity) none) := by
    intro i hi
    have hne : q.front ≠ (q.front + (i + 1)) % q.capacity :=
      (slot_ne_front hfront (by omega) (by omega)).symm
    rw [hqb, hqc, hqf, Nat.mod_add_mod]
    rw [show q.front + 1 + i = q.front + (i + 1) by omega]
    exact getD_set_ne hne none none
  refine ⟨t, ht, by rw [peek_eq_front hs, ht], ?_, hqs, hqc, ?_, ?_⟩
  · have : (q.dequeue).2 = q.buf.getD q.front none := by
      simp [QueueRR.dequeue, hs, List.getD_eq_getElem?_getD]
    rw [this, ht]
  · -- head/tail decomposition of the ordered task list
    obtain ⟨m, hm⟩ : ∃ m, q.size = m + 1 := ⟨q.size - 1, by omega⟩
    rw [tasks_list_def, tasks_list_def, hqs, hm]
    simp only [Nat.add_sub_cancel]
    rw [List.range_succ_eq_map]
    have h0 : q.buf.getD ((q.front + 0) % q.capacity) none = some t := by
      simpa [Nat.mod_eq_of_lt hfront] using ht
    simp only [List.filterMap_cons, h0, List.filterMap_map]
    congr 1
    refine (List.filterMap_congr ?_).symm
    intro i hi
    have him : i < m := List.mem_range.mp hi
    have := hshift i (by omega)
    simp only [Function.comp]
    rw [this]
  · -- structural well-formedness is preserved
    refine ⟨by omega, ?_, ?_, by omega, ?_⟩
    · rw [hqb, hqc, List.length_set, hlen]
    · rw [hqf, hqc]
      exact Nat.mod_lt _ hcap
    · intro i hi
      rw [hqs] at hi
      rw [hshift i (by omega)]
      exact hwin (i + 1) (by omega)

/-- `enqueue` on a non-full well-formed queue: succeeds and appends the task
at the logical tail of the ordered task list. -/
theorem enqueue_spec {q : QueueRR} (h : BufWF q) (hlt : q.size < q.capacity) (t : Task) :
    (q.enqueue t).2 = true ∧
    (q.enqueue t).1.size = q.size + 1 ∧
    (q.enqueue t).1.capacity = q.capacity ∧
    (q.enqueue t).1.front = q.front ∧
    (q.enqueue t).1.tasks_list = q.tasks_list ++ [t] ∧
    BufWF (q.enqueue t).1 := by
  obtain ⟨hcap, hlen, hfront, hsize, hwin⟩ := h
  have hnf : ¬ q.size ≥ q.capacity := by omega
  have hqs : (q.enqueue t).1.size = q.size + 1 := by simp [QueueRR.enqueue, hnf]
  have hqc : (q.enqueue t).1.capacity = q.capacity := by simp [QueueRR.enqueue, hnf]
  have hqf : (q.enqueue t).1.front = q.front := by simp [QueueRR.enqueue, hnf]
  have hqb : (q.enqueue t).1.buf = q.buf.set ((q.front + q.size) % q.capacity) (some t) := by
    simp [QueueRR.enqueue, hnf]
  have hslot : (q.front + q.size) % q.capacity < q.buf.length := by
    rw [hlen]
    exact Nat.mod_lt _ hcap
  have hkeep : ∀ i, i < q.size →
      ((q.enqueue t).1.buf.getD ((q.front + i) % q.capacity) none) =
        (q.buf.getD ((q.front + i) % q.capacity) none) := by
    intro i hi
    rw [hqb]
    refine getD_set_ne ?_ (some t) none
    intro hcontra
    have : q.size = i := modInj hlt (by omega) hcontra
    omega
  refine ⟨by simp [QueueRR.enqueue, hnf], hqs, hqc, hqf, ?_, ?_⟩
  · rw [tasks_list_def, tasks_list_def, hqs, hqc, hqf, List.range_succ,
      List.filterMap_append]
    congr 1
    · exact List.filterMap_congr (fun i hi => hkeep i (List.mem_range.mp hi))
    · have hlast : (q.enqueue t).1.buf.getD ((q.front + q.size) % q.capacity) none = some t := by
        rw [hqb]
        exact getD_set_self hslot (some t) none
      rw [List.getD_eq_getElem?_getD] at hlast
      simp [List.filterMap_cons, hlast]
  · refine ⟨by omega, ?_, by omega, by omega, ?_⟩
    · rw [hqb, hqc, List.length_set, hlen]
    · intro i hi
      rw [hqs] at hi
      rw [hqc, hqf]
      by_cases hieq : i = q.size
      · subst hieq
        rw [hqb, getD_set_self hslot (some t) none]
        rfl
      · rw [hkeep i (by omega)]
        exact hwin i (by omega)

/-- Overwriting the front slot (the in-place mutation of the peeked task):
replaces the head of the ordered task list and changes nothing else. -/
theorem setFront_spec {q : QueueRR} (h : BufWF q) (hs : q.size ≠ 0) (t : Task) :
    (q.setFront t).size = q.size ∧
    (q.setFront t).capacity = q.capacity ∧
    (q.setFront t).front = q.front ∧
    (q.setFront t).tasks_list = t :: q.tasks_list.tail ∧
    BufWF (q.setFront t) := by
  obtain ⟨hcap, hlen, hfront, hsize, hwin⟩ := h
  have hfl : q.front < q.buf.length := by omega
  have hkeep : ∀ i, i ≠ 0 → i < q.capacity →
      ((q.setFront t).buf.getD ((q.front + i) % q.capacity) none) =
        (q.buf.getD ((q.front + i) % q.capacity) none) := by
    intro i hi0 hic
    exact getD_set_ne (slot_ne_front hfront hi0 hic).symm (some t) none
  have hget0 : (q.setFront t).buf.getD ((q.front + 0) % q.capacity) none = some t := by
    rw [Nat.add_zero, Nat.mod_eq_of_lt hfront]
    exact getD_set_self hfl (some t) none
  refine ⟨rfl, rfl, rfl, ?_, ?_⟩
  · obtain ⟨m, hm⟩ : ∃ m, q.size = m + 1 := ⟨q.size - 1, by omega⟩
    obtain ⟨t0, ht0⟩ := front_slot_some ⟨hcap, hlen, hfront, hsize, hwin⟩ hs
    have hf0 : q.buf.getD ((q.front + 0) % q.capacity) none = some t0 := by
      simpa [Nat.mod_eq_of_lt hfront] using ht0
    rw [tasks_list_def, tasks_list_def]
    have hsz : (q.setFront t).size = q.size := rfl
    have hcz : (q.setFront t).capacity = q.capacity := rfl
    have hfz : (q.setFront t).front = q.front := rfl
    rw [hsz, hcz, hfz, hm, List.range_succ_eq_map]
    simp only [List.filterMap_cons, hget0, hf0, List.filterMap_map, List.tail_cons]
    congr 1
    refine List.filterMap_congr ?_
    intro i hi
    have him : i < m := List.mem_range.mp hi
    simp only [Function.comp]
    exact hkeep (i + 1) (by omega) (by omega)
  · refine ⟨hcap, ?_, hfront, hsize, ?_⟩
    · rw [show (q.setFront t).buf = q.buf.set q.front (some t) from rfl,
        List.length_set, hlen]
      rfl
    · intro i hi
      rw [show (q.setFront t).size = q.size from rfl] at hi
      rw [show (q.setFront t).capacity = q.capacity from rfl,
        show (q.setFront t).front = q.front from rfl]
      by_cases hi0 : i = 0
      · subst hi0
        rw [hget0]
        rfl
      · rw [hkeep i hi0 (by omega)]
        exact hwin i hi

/-! ### Event-line helpers (byte-identical to the interpolations in the
operation definitions) -/

def runLine (t : Int) (qid : String) : String :=
  s!"time={t} event=run queue={qid}"

def finishLine (t : Int) (qid tid : String) : String :=
  s!"time={t} event=finish queue={qid} id={tid}"

def workLine (t : Int) (qid tid : String) (rem : Int) : String :=
  s!"time={t} event=work queue={qid} id={tid} remaining={rem}"

def skipLine (t : Int) (qid : String) : String :=
  s!"time={t} event=skip queue={qid}"

def errorLine (t : Int) : String :=
  s!"time={t} event=error reason=invalid_steps"

theorem aset_aset {α : Type} (l : List (String × α)) (k : String) (v w : α) :
    aset (aset l k v) k w = aset l k w := by
  induction l with
  | nil => simp [aset]
  | cons p rest ih =>
    obtain ⟨k1, v1⟩ := p
    by_cases h : k1 = k
    · simp [aset, h]
    · simp [aset, h, ih]

/-- A turn never changes the round-robin order, the menu, or the counters. -/
theorem turnAux_fields (s : Scheduler) (quantum : Int) :
    (s.turnAux quantum).1.queue_order = s.queue_order ∧
    (s.turnAux quantum).1.menu = s.menu ∧
    (s.turnAux quantum).1.id_counters = s.id_counters := by
  refine ⟨?_, ?_, ?_⟩ <;>
    · unfold Scheduler.turnAux
      dsimp only
      repeat' split
      all_goals simp

theorem normRR_fields (s : Scheduler) :
    (normRR s).queue_order = s.queue_order ∧ (normRR s).menu = s.menu ∧
    (normRR s).id_counters = s.id_counters ∧ (normRR s).time = s.time ∧
    (normRR s).queues = s.queues ∧ (normRR s).skip_flags = s.skip_flags := by
  unfold normRR
  split
  all_goals simp

theorem doTurn_fields (s : Scheduler) (quantum : Int) :
    (s.doTurn quantum).1.queue_order = s.queue_order ∧
    (s.doTurn quantum).1.menu = s.menu ∧
    (s.doTurn quantum).1.id_counters = s.id_counters := by
  unfold Scheduler.doTurn
  refine ⟨?_, ?_, ?_⟩
  · rw [(turnAux_fields _ _).1, (normRR_fields s).1]
  · rw [(turnAux_fields _ _).2.1, (normRR_fields s).2.1]
  · rw [(turnAux_fields _ _).2.2, (normRR_fields s).2.2.1]

theorem normRR_id {s : Scheduler} (h : s.rr_index < s.queue_order.length) :
    normRR s = s := by
  unfold normRR
  rw [if_neg (by omega)]

theorem doTurn_eq_turnAux {s : Scheduler} (quantum : Int)
    (h : s.rr_index < s.queue_order.length) :
    s.doTurn quantum = s.turnAux quantum := by
  unfold Scheduler.doTurn
  rw [normRR_id h]

/-- Skip branch: flag cleared, zero time, snapshot taken before the cursor
advances, one `run` event. -/
theorem turnAux_skip {s : Scheduler} (quantum : Int) {qid : String}
    (hqid : s.queue_order.getD s.rr_index "" = qid)
    (hflag : (alookup s.skip_flags qid).getD false = true) :
    s.turnAux quantum =
      ({ s with skip_flags := aset s.skip_flags qid false,
                rr_index := (s.rr_index + 1) % s.queue_order.length },
       runLine s.time qid ::
         Scheduler.display { s with skip_flags := aset s.skip_flags qid false }) := by
  unfold Scheduler.turnAux
  dsimp only
  rw [hqid, hflag]
  simp [runLine]

/-- Empty branch: no flag, empty queue, zero time, snapshot taken before the
cursor advances, one `run` event. -/
theorem turnAux_empty {s : Scheduler} (quantum : Int) {qid : String}
    (hqid : s.queue_order.getD s.rr_index "" = qid)
    (hflag : (alookup s.skip_flags qid).getD false = false)
    (hsz : (getQ s qid).size = 0) :
    s.turnAux quantum =
      ({ s with rr_index := (s.rr_index + 1) % s.queue_order.length },
       runLine s.time qid :: s.display) := by
  unfold Scheduler.turnAux
  dsimp only
  rw [hqid, hflag, if_neg (by simp)]
  rw [if_pos hsz]
  simp [runLine]

/-- The dequeue performed right after the front-task mutation in the work
branch returns the mutated task. -/
theorem setFront_dequeue {q : QueueRR} (hwf : BufWF q) (hsz : q.size ≠ 0) (t : Task) :
    ((q.setFront t).dequeue).2 = some t ∧
    ((q.setFront t).dequeue).1.size = q.size - 1 ∧
    ((q.setFront t).dequeue).1.capacity = q.capacity := by
  obtain ⟨hsame, hcaps, hfronts, _, hbwf⟩ := setFront_spec hwf hsz t
  obtain ⟨hcap, hlen, hfront, hsize, hwin⟩ := hwf
  have hfl : q.front < q.buf.length := by omega
  have hs2 : (q.setFront t).size ≠ 0 := by rw [hsame]; exact hsz
  refine ⟨?_, ?_, ?_⟩
  · have : ((q.setFront t).dequeue).2 = (q.setFront t).buf.getD (q.setFront t).front none := by
      simp [QueueRR.dequeue, hs2, List.getD_eq_getElem?_getD]
    rw [this, hfronts]
    rw [show (q.setFront t).buf = q.buf.set q.front (some t) from rfl]
    exact getD_set_self hfl (some t) none
  · have : ((q.setFront t).dequeue).1.size = (q.setFront t).size - 1 := by
      simp [QueueRR.dequeue, hs2]
    rw [this, hsame]
  · have : ((q.setFront t).dequeue).1.capacity = (q.setFront t).capacity := by
      simp [QueueRR.dequeue, hs2]
    rw [this, hcaps]

/-- Work branch, finish case: the quantum covers the whole remaining burst,
the task is removed, a `finish` event is emitted, the clock advances by the
work done, and the snapshot is taken after the cursor advances. -/
theorem turnAux_work_finish {s : Scheduler} (quantum : Int) {qid : String} {q : QueueRR}
    {front : Task}
    (hqid : s.queue_order.getD s.rr_index "" = qid)
    (hflag : (alookup s.skip_flags qid).getD false = false)
    (hq : alookup s.queues qid = some q)
    (hwf : BufWF q)
    (hsz : q.size ≠ 0)
    (hpk : q.peek = some front)
    (hrem0 : front.remaining - min quantum front.remaining = 0) :
    s.turnAux quantum =
      (let w := min quantum front.remaining
       let q2 := ((q.setFront {front with remaining := front.remaining - w}).dequeue).1
       let s2 : Scheduler :=
         { s with time := s.time + w, queues := aset s.queues qid q2,
                  rr_index := (s.rr_index + 1) % s.queue_order.length }
       (s2, runLine s.time qid :: finishLine (s.time + w) qid front.task_id :: s2.display)) := by
  have hgq : getQ s qid = q := by simp [getQ, hq]
  have hdq := setFront_dequeue hwf hsz {front with remaining := front.remaining - min quantum front.remaining}
  unfold Scheduler.turnAux
  dsimp only
  rw [hqid, hflag, if_neg (by simp), hgq, if_neg hsz, hpk]
  dsimp only
  rw [if_pos hrem0, hdq.1]
  dsimp only
  rw [aset_aset]
  simp [runLine, finishLine]

/-- Work branch, partial case: part of the burst remains, the task is moved
from the head to the tail of the same queue, a `work` event is emitted with
the new remaining burst, the clock advances by the quantum, and the snapshot
is taken after the cursor advances. -/
theorem turnAux_work_requeue {s : Scheduler} (quantum : Int) {qid : String} {q : QueueRR}
    {front : Task}
    (hqid : s.queue_order.getD s.rr_index "" = qid)
    (hflag : (alookup s.skip_flags qid).getD false = false)
    (hq : alookup s.queues qid = some q)
    (hwf : BufWF q)
    (hsz : q.size ≠ 0)
    (hpk : q.peek = some front)
    (hrem0 : front.remaining - min quantum front.remaining ≠ 0) :
    s.turnAux quantum =
      (let w := min quantum front.remaining
       let tk : Task := {front with remaining := front.remaining - w}
       let q3 := (((q.setFront tk).dequeue).1.enqueue tk).1
       let s2 : Scheduler :=
         { s with time := s.time + w, queues := aset s.queues qid q3,
                  rr_index := (s.rr_index + 1) % s.queue_order.length }
       (s2, runLine s.time qid ::
         workLine (s.time + w) qid front.task_id (front.remaining - w) :: s2.display)) := by
  have hgq : getQ s qid = q := by simp [getQ, hq]
  have hdq := setFront_dequeue hwf hsz {front with remaining := front.remaining - min quantum front.remaining}
  have henq : ((((q.setFront {front with remaining := front.remaining - min quantum front.remaining}).dequeue).1.enqueue
      {front with remaining := front.remaining - min quantum front.remaining})).2 = true := by
    obtain ⟨hcap, hlen, hfront, hsize, hwin⟩ := hwf
    unfold QueueRR.enqueue
    rw [if_neg (by rw [hdq.2.1, hdq.2.2]; omega)]
  unfold Scheduler.turnAux
  dsimp only
  rw [hqid, hflag, if_neg (by simp), hgq, if_neg hsz, hpk]
  dsimp only
  rw [if_neg hrem0, hdq.1]
  dsimp only
  rw [henq]
  rw [aset_aset]
  simp [runLine, workLine]

/-! ### Invariant preservation -/

theorem REQUIRED_MENU_pos {item : String} {b : Nat}
    (h : alookup REQUIRED_MENU item = some b) : 1 ≤ b := by
  have hm := alookup_mem h
  have : ∀ p ∈ REQUIRED_MENU, 1 ≤ p.2 := by decide
  exact this _ hm

theorem getD_mem {l : List String} {i : Nat} (h : i < l.length) (d : String) :
    l.getD i d ∈ l := by
  rw [List.getD_eq_getElem?_getD, List.getElem?_eq_getElem h]
  exact List.getElem_mem h

theorem QueueWF_mkEmpty {qid : String} {cap : Nat} (hcap : 0 < cap) :
    QueueWF (QueueRR.mkEmpty qid cap) := by
  refine ⟨⟨hcap, by simp [QueueRR.mkEmpty], hcap, by simp [QueueRR.mkEmpty], ?_⟩, ?_⟩
  · intro i hi
    simp [QueueRR.mkEmpty] at hi
  · intro t ht
    simp [QueueRR.mkEmpty, tasks_list_def] at ht

theorem inv_create {s : Scheduler} (h : SInv s) {qid : String} {cap : Nat}
    (hcap : 0 < cap) : SInv (s.create_queue qid cap).1 := by
  obtain ⟨h1, h2, h3, h4, h5, h6, h7, h8⟩ := h
  unfold Scheduler.create_queue
  dsimp only
  refine ⟨?_, ?_, ?_, ?_, ?_, h6, nodup_keys_aset h7, nodup_keys_aset h8⟩
  · intro qid2 hq2
    by_cases he : qid = qid2
    · subst he
      simp [alookup_aset_self]
    · rw [alookup_aset_ne _ _ _ _ he, alookup_aset_ne _ _ _ _ he,
        alookup_aset_ne _ _ _ _ he]
      rcases List.mem_append.mp hq2 with hq2 | hq2
      · exact h1 qid2 hq2
      · simp at hq2
        exact absurd hq2.symm he
  · intro p hp
    rcases mem_aset hp with hp | hp
    · subst hp
      exact ⟨by simp, QueueWF_mkEmpty hcap⟩
    · obtain ⟨ha, hb⟩ := h2 p hp
      exact ⟨List.mem_append.mpr (Or.inl ha), hb⟩
  · intro p hp
    rcases mem_aset hp with hp | hp
    · subst hp
      simp
    · exact List.mem_append.mpr (Or.inl (h3 p hp))
  · intro _
    dsimp only
    by_cases hor : s.queue_order = []
    · simp [hor, h5 hor]
    · have := h4 hor
      simp only [List.length_append]
      omega
  · intro hcontra
    simp at hcontra

theorem inv_enqueue {s : Scheduler} (h : SInv s) (qid item : String) :
    SInv (s.enqueue qid item).1 := by
  obtain ⟨h1, h2, h3, h4, h5, h6, h7, h8⟩ := h
  unfold Scheduler.enqueue
  dsimp only
  rcases hmi : alookup s.menu item with _ | burst
  · exact ⟨h1, h2, h3, h4, h5, h6, h7, h8⟩
  dsimp only
  rcases hqi : (alookup s.queues qid).isSome with _ | _
  · simp only [Bool.false_eq_true, if_false]
    exact ⟨h1, h2, h3, h4, h5, h6, h7, h8⟩
  simp only [if_true]
  obtain ⟨q0, hq0⟩ := Option.isSome_iff_exists.mp hqi
  have hgq : getQ s qid = q0 := by simp [getQ, hq0]
  have hq0wf : QueueWF q0 := (h2 _ (alookup_mem hq0)).2
  have hq0mem : qid ∈ s.queue_order := (h2 _ (alookup_mem hq0)).1
  have hcount : ∀ c, (∀ qid2 ∈ s.queue_order,
      (alookup (aset s.id_counters qid c) qid2).isSome = true) := by
    intro c qid2 hq2
    by_cases he : qid = qid2
    · subst he
      simp [alookup_aset_self]
    · rw [alookup_aset_ne _ _ _ _ he]
      exact (h1 qid2 hq2).2.1
  by_cases hfull : q0.size ≥ q0.capacity
  · have : (getQ s qid).enqueue
        ⟨qid ++ "-" ++ pad3 ((alookup s.id_counters qid).getD 0 + 1),
         (burst : Int)⟩ = (q0, false) := by
      rw [hgq]
      unfold QueueRR.enqueue
      rw [if_pos hfull]
    rw [this]
    simp only [Bool.false_eq_true, if_false]
    exact ⟨fun qid2 hq2 => ⟨(h1 qid2 hq2).1, hcount _ qid2 hq2, (h1 qid2 hq2).2.2⟩,
      h2, h3, h4, h5, h6, h7, h8⟩
  · have hlt : q0.size < q0.capacity := by omega
    have hes := enqueue_spec hq0wf.1 hlt
      ⟨qid ++ "-" ++ pad3 ((alookup s.id_counters qid).getD 0 + 1), (burst : Int)⟩
    rw [hgq, hes.1]
    simp only [if_true]
    refine ⟨fun qid2 hq2 => ⟨?_, hcount _ qid2 hq2, (h1 qid2 hq2).2.2⟩, ?_, h3, h4, h5,
      h6, nodup_keys_aset h7, h8⟩
    · by_cases he : qid = qid2
      · subst he
        simp [alookup_aset_self]
      · rw [alookup_aset_ne _ _ _ _ he]
        exact (h1 qid2 hq2).1
    · intro p hp
      rcases mem_aset hp with hp | hp
      · subst hp
        refine ⟨hq0mem, hes.2.2.2.2.2, ?_⟩
        rw [hes.2.2.2.2.1]
        intro t ht
        rcases List.mem_append.mp ht with ht | ht
        · exact hq0wf.2 t ht
        · simp at ht
          subst ht
          have := REQUIRED_MENU_pos (h6 ▸ hmi)
          simp
          omega
      · exact h2 p hp

theorem inv_mark_skip {s : Scheduler} (h : SInv s) (qid : String) :
    SInv (s.mark_skip qid).1 := by
  obtain ⟨h1, h2, h3, h4, h5, h6, h7, h8⟩ := h
  unfold Scheduler.mark_skip
  dsimp only
  rcases hfi : (alookup s.skip_flags qid).isSome with _ | _
  · simp only [Bool.false_eq_true, if_false]
    exact ⟨h1, h2, h3, h4, h5, h6, h7, h8⟩
  simp only [if_true]
  obtain ⟨v, hv⟩ := Option.isSome_iff_exists.mp hfi
  refine ⟨?_, h2, ?_, h4, h5, h6, h7, nodup_keys_aset h8⟩
  · intro qid2 hq2
    refine ⟨(h1 qid2 hq2).1, (h1 qid2 hq2).2.1, ?_⟩
    by_cases he : qid = qid2
    · subst he
      simp [alookup_aset_self]
    · rw [alookup_aset_ne _ _ _ _ he]
      exact (h1 qid2 hq2).2.2
  · intro p hp
    rcases mem_aset hp with hp | hp
    · subst hp
      have : (qid, v) ∈ s.skip_flags := alookup_mem hv
      show qid ∈ s.queue_order
      exact h3 _ this
    · exact h3 p hp

theorem quiescent_iff (s : Scheduler) :
    s.quiescent = true ↔
      ((∀ qid ∈ s.queue_order, (getQ s qid).size = 0) ∧
       (∀ p ∈ s.skip_flags, p.2 = false)) := by
  unfold Scheduler.quiescent
  simp [List.all_eq_true]

/-- The flag value read for a queue whose entry is present and clear. -/
theorem flag_getD_false {s : Scheduler} {qid : String}
    (hall : ∀ p ∈ s.skip_flags, p.2 = false) :
    (alookup s.skip_flags qid).getD false = false := by
  rcases hv : alookup s.skip_flags qid with _ | v
  · rfl
  · simpa using hall _ (alookup_mem hv)

/-- One turn from a well-formed state preserves the invariant. -/
theorem inv_turnAux {s : Scheduler} (h : SInv s) (quantum : Int)
    (hn : s.queue_order ≠ []) : SInv (s.turnAux quantum).1 := by
  obtain ⟨h1, h2, h3, h4, h5, h6, h7, h8⟩ := h
  have hrr : s.rr_index < s.queue_order.length := h4 hn
  have hnl : 0 < s.queue_order.length := by
    cases hc : s.queue_order with
    | nil => exact absurd hc hn
    | cons a l => simp [hc]
  have hrr2 : (s.rr_index + 1) % s.queue_order.length < s.queue_order.length :=
    Nat.mod_lt _ hnl
  have hqmem : s.queue_order.getD s.rr_index "" ∈ s.queue_order := getD_mem hrr ""
  obtain ⟨hqS, hcS, hfS⟩ := h1 _ hqmem
  obtain ⟨q0, hq0⟩ := Option.isSome_iff_exists.mp hqS
  have hgq : getQ s (s.queue_order.getD s.rr_index "") = q0 := by
    unfold getQ
    rw [hq0]
    rfl
  have hq0wf : QueueWF q0 := (h2 _ (alookup_mem hq0)).2
  by_cases hflag : (alookup s.skip_flags (s.queue_order.getD s.rr_index "")).getD false = true
  · rw [turnAux_skip quantum rfl hflag]
    refine ⟨?_, h2, ?_, fun _ => hrr2, ?_, h6, h7, nodup_keys_aset h8⟩
    · intro qid2 hq2
      refine ⟨(h1 qid2 hq2).1, (h1 qid2 hq2).2.1, ?_⟩
      by_cases he : s.queue_order.getD s.rr_index "" = qid2
      · rw [← he]
        simp [alookup_aset_self]
      · rw [alookup_aset_ne _ _ _ _ he]
        exact (h1 qid2 hq2).2.2
    · intro p hp
      rcases mem_aset hp with hp | hp
      · subst hp
        exact hqmem
      · exact h3 p hp
    · intro hcontra
      exact absurd hcontra hn
  · have hflag2 : (alookup s.skip_flags (s.queue_order.getD s.rr_index "")).getD false = false := by
      revert hflag
      cases (alookup s.skip_flags (s.queue_order.getD s.rr_index "")).getD false <;> simp
    by_cases hsz : (getQ s (s.queue_order.getD s.rr_index "")).size = 0
    · rw [turnAux_empty quantum rfl hflag2 hsz]
      exact ⟨h1, h2, h3, fun _ => hrr2, fun hc => absurd hc hn, h6, h7, h8⟩
    · have hsz0 : q0.size ≠ 0 := by
        rw [hgq] at hsz
        exact hsz
      obtain ⟨front, hfr⟩ := front_slot_some hq0wf.1 hsz0
      have hpk : q0.peek = some front := by rw [peek_eq_front hsz0, hfr]
      -- facts about the mutated-then-dequeued queue
      have hset := setFront_spec hq0wf.1 hsz0
        {front with remaining := front.remaining - min quantum front.remaining}
      have hsz1 : (q0.setFront
          {front with remaining := front.remaining - min quantum front.remaining}).size ≠ 0 := by
        rw [hset.1]
        exact hsz0
      have hdq := dequeue_spec hset.2.2.2.2 hsz1
      obtain ⟨t1, ht1a, ht1b, ht1c, hdsz, hdcap, hdtl, hdwf⟩ := hdq
      have hdsz2 : ((q0.setFront
          {front with remaining := front.remaining - min quantum front.remaining}).dequeue).1.size
          = q0.size - 1 := by
        rw [hdsz, hset.1]
      have hdcap2 : ((q0.setFront
          {front with remaining := front.remaining - min quantum front.remaining}).dequeue).1.capacity
          = q0.capacity := by
        rw [hdcap, hset.2.1]
      have htail : ((q0.setFront
          {front with remaining := front.remaining - min quantum front.remaining}).dequeue).1.tasks_list
          = q0.tasks_list.tail := by
        have hx := hset.2.2.2.1
        rw [hx] at hdtl
        injection hdtl with he1 he2
        exact he2.symm
      have hpos2 : ∀ t ∈ ((q0.setFront
          {front with remaining := front.remaining - min quantum front.remaining}).dequeue).1.tasks_list,
          1 ≤ t.remaining := by
        intro t ht
        rw [htail] at ht
        exact hq0wf.2 t (List.mem_of_mem_tail ht)
      have mem_goal : ∀ (qX : QueueRR), QueueWF qX →
          SInv { s with time := s.time + min quantum front.remaining,
                        queues := aset s.queues (s.queue_order.getD s.rr_index "") qX,
                        rr_index := (s.rr_index + 1) % s.queue_order.length } := by
        intro qX hqXwf
        refine ⟨?_, ?_, h3, fun _ => hrr2, fun hc => absurd hc hn, h6,
          nodup_keys_aset h7, h8⟩
        · intro qid2 hq2
          refine ⟨?_, (h1 qid2 hq2).2.1, (h1 qid2 hq2).2.2⟩
          by_cases he : s.queue_order.getD s.rr_index "" = qid2
          · rw [← he]
            simp [alookup_aset_self]
          · rw [alookup_aset_ne _ _ _ _ he]
            exact (h1 qid2 hq2).1
        · intro p hp
          rcases mem_aset hp with hp | hp
          · subst hp
            exact ⟨hqmem, hqXwf⟩
          · exact h2 p hp
      by_cases hrem : front.remaining - min quantum front.remaining = 0
      · rw [turnAux_work_finish quantum rfl hflag2 hq0 hq0wf.1 hsz0 hpk hrem]
        dsimp only
        exact mem_goal _ ⟨hdwf, hpos2⟩
      · rw [turnAux_work_requeue quantum rfl hflag2 hq0 hq0wf.1 hsz0 hpk hrem]
        dsimp only
        have hlt : ((q0.setFront
            {front with remaining := front.remaining - min quantum front.remaining}).dequeue).1.size
            < ((q0.setFront
            {front with remaining := front.remaining - min quantum front.remaining}).dequeue).1.capacity := by
          rw [hdsz2, hdcap2]
          have := hq0wf.1.2.2.2.1
          have := hq0wf.1.1
          omega
        have henq := enqueue_spec hdwf hlt
          {front with remaining := front.remaining - min quantum front.remaining}
        refine mem_goal _ ⟨henq.2.2.2.2.2, ?_⟩
        rw [henq.2.2.2.2.1]
        intro t ht
        rcases List.mem_append.mp ht with ht | ht
        · exact hpos2 t ht
        · simp at ht
          subst ht
          have hminle : min quantum front.remaining ≤ front.remaining := min_le_right _ _
          simp
          omega

theorem inv_doTurn {s : Scheduler} (h : SInv s) (quantum : Int)
    (hn : s.queue_order ≠ []) : SInv (s.doTurn quantum).1 := by
  rw [doTurn_eq_turnAux quantum (h.2.2.2.1 hn)]
  exact inv_turnAux h quantum hn

/-- A quiescent state stays quiescent through a turn: the visited queue is
empty and unflagged, so the turn only advances the cursor. -/
theorem quiescent_doTurn {s : Scheduler} (h : SInv s) (quantum : Int)
    (hn : s.queue_order ≠ []) (hq : s.quiescent = true) :
    (s.doTurn quantum).1.quiescent = true := by
  obtain ⟨hsz, hfl⟩ := (quiescent_iff s).mp hq
  have hrr : s.rr_index < s.queue_order.length := h.2.2.2.1 hn
  rw [doTurn_eq_turnAux quantum hrr]
  rw [turnAux_empty quantum rfl (flag_getD_false hfl) (hsz _ (getD_mem hrr ""))]
  exact (quiescent_iff _).mpr ⟨hsz, hfl⟩

theorem inv_runLoop (quantum : Int) :
    ∀ (fuel : Nat) (mt : Option Nat) (s : Scheduler), SInv s →
      SInv (runLoop quantum mt fuel s).1 := by
  intro fuel
  induction fuel with
  | zero => intro mt s h; exact h
  | succ fuel ih =>
    intro mt s h
    unfold runLoop
    by_cases h0 : mt = some 0
    · rw [if_pos h0]
      exact h
    rw [if_neg h0]
    by_cases hn : s.queue_order.length = 0
    · rw [if_pos hn]
      exact h
    rw [if_neg hn]
    have hne : s.queue_order ≠ [] := by
      intro hc
      rw [hc] at hn
      exact hn rfl
    have hinv := inv_doTurn h quantum hne
    dsimp only
    by_cases hqq : (mt = none && (s.doTurn quantum).1.quiescent) = true
    · rw [if_pos hqq]
      exact hinv
    · rw [if_neg hqq]
      exact ih _ _ hinv

theorem inv_normRR {s : Scheduler} (h : SInv s) : normRR s = s := by
  unfold normRR
  split
  · rename_i hge
    by_cases hn : s.queue_order = []
    · have hm : s.rr_index % s.queue_order.length = s.rr_index := by
        rw [hn]
        exact Nat.mod_zero _
      rw [hm]
    · exact absurd hge (by have := h.2.2.2.1 hn; omega)
  · rfl

theorem inv_run {s : Scheduler} (h : SInv s) (quantum : Int) (steps : Option Int)
    (fuel : Nat) : SInv (s.run quantum steps fuel).1 := by
  unfold Scheduler.run
  dsimp only
  by_cases hn : s.queue_order.length = 0
  · rw [if_pos hn]
    exact h
  rw [if_neg hn]
  rcases steps with _ | st
  · rw [inv_normRR h]
    exact inv_runLoop quantum fuel none s h
  · dsimp only
    by_cases hv : 1 ≤ st ∧ st ≤ (s.queue_order.length : Int)
    · rw [if_pos hv, inv_normRR h]
      exact inv_runLoop quantum fuel (some st.toNat) s h
    · rw [if_neg hv]
      exact h

theorem SInv_init : SInv Scheduler.init := by decide

/-- Every reachable state satisfies the invariant. -/
theorem inv_reach {s : Scheduler} (h : Reach s) : SInv s := by
  induction h with
  | init => exact SInv_init
  | create qid cap _ hcap ih => exact inv_create ih hcap
  | enq qid item _ ih => exact inv_enqueue ih qid item
  | skip qid _ ih => exact inv_mark_skip ih qid
  | runs quantum steps fuel _ ih => exact inv_run ih quantum steps fuel

theorem reachNN_reach {s : Scheduler} (h : ReachNN s) : Reach s := by
  induction h with
  | init => exact Reach.init
  | create qid cap _ hcap ih => exact Reach.create qid cap ih hcap
  | enq qid item _ ih => exact Reach.enq qid item ih
  | skip qid _ ih => exact Reach.skip qid ih
  | runs quantum steps fuel _ _ ih => exact Reach.runs quantum steps fuel ih

/-! ### The run loop against the turn-by-turn reference -/

theorem iterTurns_succ_fst (quantum : Int) (k : Nat) (s : Scheduler) :
    (iterTurns quantum (k + 1) s).1 = (iterTurns quantum k (s.doTurn quantum).1).1 := rfl

theorem iterTurns_succ_snd (quantum : Int) (k : Nat) (s : Scheduler) :
    (iterTurns quantum (k + 1) s).2 =
      (s.doTurn quantum).2 ++ (iterTurns quantum k (s.doTurn quantum).1).2 := rfl

theorem iterTurns_order (quantum : Int) :
    ∀ (k : Nat) (s : Scheduler), (iterTurns quantum k s).1.queue_order = s.queue_order := by
  intro k
  induction k with
  | zero => intro s; rfl
  | succ k ih =>
    intro s
    rw [iterTurns_succ_fst, ih, (doTurn_fields s quantum).1]

/-- With `steps` given (and enough fuel), the loop performs exactly `steps`
turns: state and log agree with the `steps`-fold turn iteration, and the
loop exits through the turn-count break. -/
theorem runLoop_steps (quantum : Int) :
    ∀ (k fuel : Nat) (s : Scheduler), s.queue_order ≠ [] → k < fuel →
      runLoop quantum (some k) fuel s =
        ((iterTurns quantum k s).1, (iterTurns quantum k s).2, true) := by
  intro k
  induction k with
  | zero =>
    intro fuel s hn hf
    obtain ⟨f, rfl⟩ : ∃ f, fuel = f + 1 := ⟨fuel - 1, by omega⟩
    unfold runLoop
    rw [if_pos rfl]
    rfl
  | succ k ih =>
    intro fuel s hn hf
    obtain ⟨f, rfl⟩ : ∃ f, fuel = f + 1 := ⟨fuel - 1, by omega⟩
    have hlen : ¬ s.queue_order.length = 0 := by
      cases hc : s.queue_order with
      | nil => exact absurd hc hn
      | cons a l => simp [hc]
    unfold runLoop
    rw [if_neg (by simp), if_neg hlen]
    dsimp only
    rw [if_neg (by simp)]
    have hord : (s.doTurn quantum).1.queue_order ≠ [] := by
      rw [(doTurn_fields s quantum).1]
      exact hn
    rw [show Option.map (fun m => m - 1) (some (k + 1)) = some k by simp]
    rw [ih f (s.doTurn quantum).1 hord (by omega)]
    rw [iterTurns_succ_fst, iterTurns_succ_snd]

/-- With `steps` omitted, the loop stops exactly at the first completed turn
after which the state is quiescent. -/
theorem runLoop_none (quantum : Int) :
    ∀ (j : Nat) (s : Scheduler) (fuel : Nat), s.queue_order ≠ [] → 1 ≤ j →
      (iterTurns quantum j s).1.quiescent = true →
      (∀ i, 1 ≤ i → i < j → (iterTurns quantum i s).1.quiescent = false) →
      j ≤ fuel →
      runLoop quantum none fuel s =
        ((iterTurns quantum j s).1, (iterTurns quantum j s).2, true) := by
  intro j
  induction j with
  | zero =>
    intro s fuel hn h1
    exact absurd h1 (by omega)
  | succ j ih =>
    intro s fuel hn h1 hq hmin hf
    obtain ⟨f, rfl⟩ : ∃ f, fuel = f + 1 := ⟨fuel - 1, by omega⟩
    have hlen : ¬ s.queue_order.length = 0 := by
      cases hc : s.queue_order with
      | nil => exact absurd hc hn
      | cons a l => simp [hc]
    have hord : (s.doTurn quantum).1.queue_order ≠ [] := by
      rw [(doTurn_fields s quantum).1]
      exact hn
    unfold runLoop
    rw [if_neg (by simp), if_neg hlen]
    dsimp only
    by_cases hj0 : j = 0
    · subst hj0
      have hqd : (s.doTurn quantum).1.quiescent = true := hq
      rw [if_pos (by simp [hqd])]
      refine Prod.ext rfl (Prod.ext ?_ rfl)
      show (s.doTurn quantum).2 = (iterTurns quantum 1 s).2
      rw [iterTurns_succ_snd]
      simp [iterTurns]
    · have hj1 : 1 ≤ j := by omega
      have hnq : (s.doTurn quantum).1.quiescent = false := by
        have h := hmin 1 (by omega) (by omega)
        have he : (iterTurns quantum 1 s).1 = (s.doTurn quantum).1 := by
          rw [iterTurns_succ_fst]
          rfl
        rw [he] at h
        exact h
      rw [if_neg (by simp [hnq])]
      have hshift : ∀ i : Nat, (iterTurns quantum i (s.doTurn quantum).1).1 =
          (iterTurns quantum (i + 1) s).1 := by
        intro i
        rw [iterTurns_succ_fst]
      rw [show Option.map (fun m => m - 1) (none : Option Nat) = none from rfl]
      rw [ih (s.doTurn quantum).1 f hord hj1 (by rw [hshift]; exact hq)
        (fun i hi1 hij => by rw [hshift]; exact hmin (i + 1) (by omega) (by omega))
        (by omega)]
      rw [iterTurns_succ_fst, iterTurns_succ_snd]

/-- With `steps` omitted, the loop completes (in the source: terminates)
whenever some number of turns reaches quiescence. -/
theorem runLoop_none_completes (quantum : Int) :
    ∀ (j : Nat) (s : Scheduler) (fuel : Nat), SInv s → s.queue_order ≠ [] →
      (iterTurns quantum j s).1.quiescent = true → j < fuel →
      (runLoop quantum none fuel s).2.2 = true := by
  intro j
  induction j with
  | zero =>
    intro s fuel hinv hn hq hf
    obtain ⟨f, rfl⟩ : ∃ f, fuel = f + 1 := ⟨fuel - 1, by omega⟩
    have hlen : ¬ s.queue_order.length = 0 := by
      cases hc : s.queue_order with
      | nil => exact absurd hc hn
      | cons a l => simp [hc]
    have hqd := quiescent_doTurn hinv quantum hn hq
    unfold runLoop
    rw [if_neg (by simp), if_neg hlen]
    dsimp only
    rw [if_pos (by simp [hqd])]
  | succ j ih =>
    intro s fuel hinv hn hq hf
    obtain ⟨f, rfl⟩ : ∃ f, fuel = f + 1 := ⟨fuel - 1, by omega⟩
    have hlen : ¬ s.queue_order.length = 0 := by
      cases hc : s.queue_order with
      | nil => exact absurd hc hn
      | cons a l => simp [hc]
    have hord : (s.doTurn quantum).1.queue_order ≠ [] := by
      rw [(doTurn_fields s quantum).1]
      exact hn
    unfold runLoop
    rw [if_neg (by simp), if_neg hlen]
    dsimp only
    by_cases hqd : (s.doTurn quantum).1.quiescent = true
    · rw [if_pos (by simp [hqd])]
    · rw [if_neg (by simp [hqd])]
      dsimp only
      exact ih (s.doTurn quantum).1 f (inv_doTurn hinv quantum hn) hord
        (by rw [iterTurns_succ_fst] at hq; exact hq) (by omega)

/-! ### Termination measure for run-to-quiescence -/

/-- Number of raised skip flags. -/
def flagCount (s : Scheduler) : Nat := s.skip_flags.countP (fun p => p.2)

/-- Total remaining work in one queue. -/
def queueWork (q : QueueRR) : Nat := (q.tasks_list.map (fun t => t.remaining.toNat)).sum

/-- Total remaining work over all queues. -/
def totalWork (s : Scheduler) : Nat := (s.queues.map (fun p => queueWork p.2)).sum

/-- The termination measure: remaining work plus raised flags. -/
def measureRR (s : Scheduler) : Nat := totalWork s + flagCount s

/-- Is the queue `k` positions after the cursor non-empty or flagged? -/
def prodAt (s : Scheduler) (k : Nat) : Bool :=
  let qid := s.queue_order.getD ((s.rr_index + k) % s.queue_order.length) ""
  ((getQ s qid).size != 0) || (alookup s.skip_flags qid).getD false

theorem alookup_of_mem_nodup {α : Type} {l : List (String × α)}
    (hnd : (l.map Prod.fst).Nodup) {p : String × α} (hp : p ∈ l) :
    alookup l p.1 = some p.2 := by
  induction l with
  | nil => cases hp
  | cons q rest ih =>
    obtain ⟨k1, v1⟩ := q
    simp only [List.map_cons, List.nodup_cons] at hnd
    rcases List.mem_cons.mp hp with hp | hp
    · subst hp
      simp [alookup]
    · have hne : k1 ≠ p.1 := by
        intro hc
        exact hnd.1 (hc ▸ List.mem_map.mpr ⟨p, hp, rfl⟩)
      simp only [alookup, if_neg hne]
      exact ih hnd.2 hp

theorem prodAt_zero {s : Scheduler} (h : SInv s) (hn : s.queue_order ≠ []) :
    prodAt s 0 =
      (((getQ s (s.queue_order.getD s.rr_index "")).size != 0) ||
       (alookup s.skip_flags (s.queue_order.getD s.rr_index "")).getD false) := by
  have hrr : s.rr_index < s.queue_order.length := h.2.2.2.1 hn
  unfold prodAt
  rw [Nat.add_zero, Nat.mod_eq_of_lt hrr]

/-- A non-quiescent well-formed state has positive measure. -/
theorem measure_pos_of_not_quiescent {s : Scheduler} (h : SInv s)
    (hq : s.quiescent = false) : 1 ≤ measureRR s := by
  obtain ⟨h1, h2, h3, h4, h5, h6, h7, h8⟩ := h
  have : ¬ ((∀ qid ∈ s.queue_order, (getQ s qid).size = 0) ∧
      (∀ p ∈ s.skip_flags, p.2 = false)) := by
    intro hc
    rw [(quiescent_iff s).mpr hc] at hq
    cases hq
  rcases Classical.not_and_iff_or_not_not.mp this with hc | hc
  · push_neg at hc
    obtain ⟨qid, hqid, hsz⟩ := hc
    rcases hl : alookup s.queues qid with _ | q0
    · exact absurd (by unfold getQ at hsz; rw [hl] at hsz; simp [QueueRR.mkEmpty] at hsz) hsz
    have hgq : getQ s qid = q0 := by
      unfold getQ
      rw [hl]
      rfl
    rw [hgq] at hsz
    have hwf := (h2 _ (alookup_mem hl)).2
    obtain ⟨t, _, _, _, _, _, hdtl, _⟩ := dequeue_spec hwf.1 hsz
    have htm : t ∈ q0.tasks_list := by
      rw [hdtl]
      exact List.mem_cons_self _ _
    have hpos := hwf.2 t htm
    have hqw : 1 ≤ queueWork q0 := by
      unfold queueWork
      rw [hdtl]
      simp
      omega
    have hmem : queueWork q0 ∈ s.queues.map (fun p => queueWork p.2) :=
      List.mem_map.mpr ⟨(qid, q0), alookup_mem hl, rfl⟩
    have := List.single_le_sum (l := s.queues.map (fun p => queueWork p.2))
      (fun x _ => Nat.zero_le x) _ hmem
    unfold measureRR totalWork
    omega
  · push_neg at hc
    obtain ⟨p, hp, hpt⟩ := hc
    have : 0 < flagCount s := by
      unfold flagCount
      refine List.countP_pos_iff.mpr ⟨p, hp, ?_⟩
      rcases hb : p.2 with _ | _
      · exact absurd hb hpt
      · rfl
    unfold measureRR
    omega

/-- A state that is not quiescent has a productive queue within one lap of
the cursor. -/
theorem not_quiescent_prod {s : Scheduler} (h : SInv s) (hn : s.queue_order ≠ [])
    (hq : s.quiescent = false) :
    ∃ k, k < s.queue_order.length ∧ prodAt s k = true := by
  obtain ⟨h1, h2, h3, h4, h5, h6, h7, h8⟩ := h
  have hrr : s.rr_index < s.queue_order.length := h4 hn
  have hnl : 0 < s.queue_order.length := by omega
  have key : ∃ qid ∈ s.queue_order,
      (((getQ s qid).size != 0) || (alookup s.skip_flags qid).getD false) = true := by
    have : ¬ ((∀ qid ∈ s.queue_order, (getQ s qid).size = 0) ∧
        (∀ p ∈ s.skip_flags, p.2 = false)) := by
      intro hc
      rw [(quiescent_iff s).mpr hc] at hq
      cases hq
    rcases Classical.not_and_iff_or_not_not.mp this with hc | hc
    · push_neg at hc
      obtain ⟨qid, hqid, hsz⟩ := hc
      exact ⟨qid, hqid, by simp [hsz]⟩
    · push_neg at hc
      obtain ⟨p, hp, hpt⟩ := hc
      have hpt2 : p.2 = true := by
        rcases hb : p.2 with _ | _
        · exact absurd hb hpt
        · rfl
      refine ⟨p.1, h3 p hp, ?_⟩
      rw [alookup_of_mem_nodup h8 hp, hpt2]
      simp
  obtain ⟨qid, hqid, hqp⟩ := key
  obtain ⟨p, hpn, hpeq⟩ := List.getElem_of_mem hqid
  have hgd : s.queue_order.getD p "" = qid := by
    rw [List.getD_eq_getElem?_getD, List.getElem?_eq_getElem hpn, hpeq]
    rfl
  refine ⟨(p + (s.queue_order.length - s.rr_index)) % s.queue_order.length, Nat.mod_lt _ hnl, ?_⟩
  unfold prodAt
  have harith : (s.rr_index + (p + (s.queue_order.length - s.rr_index)) % s.queue_order.length)
      % s.queue_order.length = p := by
    rw [Nat.add_mod, Nat.mod_mod_of_dvd _ dvd_rfl, ← Nat.add_mod]
    rw [show s.rr_index + (p + (s.queue_order.length - s.rr_index)) =
      p + s.queue_order.length by omega]
    rw [Nat.add_mod_right, Nat.mod_eq_of_lt hpn]
  rw [harith, hgd]
  exact hqp

/-- A turn on a productive cursor position strictly decreases the measure
when the quantum is at least one. -/
theorem turn_measure_prod0 {s : Scheduler} (h : SInv s) {quantum : Int}
    (hq1 : 1 ≤ quantum) (hn : s.queue_order ≠ []) (hprod : prodAt s 0 = true) :
    measureRR (s.doTurn quantum).1 < measureRR s := by
  have hp0 := (prodAt_zero h hn).symm.trans hprod
  obtain ⟨h1, h2, h3, h4, h5, h6, h7, h8⟩ := h
  have hrr : s.rr_index < s.queue_order.length := h4 hn
  rw [doTurn_eq_turnAux quantum hrr]
  by_cases hflag : (alookup s.skip_flags (s.queue_order.getD s.rr_index "")).getD false = true
  · -- skip turn: one flag cleared, queues untouched
    rw [turnAux_skip quantum rfl hflag]
    obtain ⟨v, hv⟩ : ∃ v, alookup s.skip_flags (s.queue_order.getD s.rr_index "") = some v := by
      rcases hl : alookup s.skip_flags (s.queue_order.getD s.rr_index "") with _ | v
      · rw [hl] at hflag
        cases hflag
      · exact ⟨v, rfl⟩
    have hvt : v = true := by
      rw [hv] at hflag
      exact hflag
    subst hvt
    have hcnt := countP_aset_false hv
    unfold measureRR totalWork flagCount
    dsimp only
    omega
  · -- work turn: the head task loses at least one unit of burst
    have hflag2 : (alookup s.skip_flags (s.queue_order.getD s.rr_index "")).getD false = false := by
      revert hflag
      cases (alookup s.skip_flags (s.queue_order.getD s.rr_index "")).getD false <;> simp
    rw [hflag2, Bool.or_false] at hp0
    have hsz : (getQ s (s.queue_order.getD s.rr_index "")).size ≠ 0 := by
      simpa using hp0
    have hqmem : s.queue_order.getD s.rr_index "" ∈ s.queue_order := getD_mem hrr ""
    obtain ⟨q0, hq0⟩ := Option.isSome_iff_exists.mp (h1 _ hqmem).1
    have hgq : getQ s (s.queue_order.getD s.rr_index "") = q0 := by
      unfold getQ
      rw [hq0]
      rfl
    rw [hgq] at hsz
    have hq0wf : QueueWF q0 := (h2 _ (alookup_mem hq0)).2
    obtain ⟨front0, hfr0, hpk0, hd0a, hd0b, hd0c, hdtl0, hd0wf⟩ := dequeue_spec hq0wf.1 hsz
    have hpk : q0.peek = some front0 := hpk0
    have hfpos : 1 ≤ front0.remaining := by
      refine hq0wf.2 front0 ?_
      rw [hdtl0]
      exact List.mem_cons_self _ _
    have hwpos : 1 ≤ min quantum front0.remaining := le_min hq1 hfpos
    have hwle : min quantum front0.remaining ≤ front0.remaining := min_le_right _ _
    have key : ∀ (qX : QueueRR) (tt : Int), queueWork qX < queueWork q0 →
        measureRR { s with
          time := tt,
          queues := aset s.queues (s.queue_order.getD s.rr_index "") qX,
          rr_index := (s.rr_index + 1) % s.queue_order.length } < measureRR s := by
      intro qX tt hlt2
      have hsum := sum_aset queueWork qX hq0
      unfold measureRR totalWork flagCount
      dsimp only
      omega
    have hset := setFront_spec hq0wf.1 hsz
      {front0 with remaining := front0.remaining - min quantum front0.remaining}
    have hsz1 : (q0.setFront {front0 with remaining := front0.remaining - min quantum front0.remaining}).size ≠ 0 := by
      rw [hset.1]
      exact hsz
    obtain ⟨t1, ht1a, ht1b, ht1c, ht1d, ht1e, hdtl1, hdwf1⟩ := dequeue_spec hset.2.2.2.2 hsz1
    have htail : ((q0.setFront {front0 with remaining := front0.remaining - min quantum front0.remaining}).dequeue).1.tasks_list = q0.tasks_list.tail := by
      have hx := hset.2.2.2.1
      rw [hx] at hdtl1
      injection hdtl1 with he1 he2
      exact he2.symm
    have htl0 : q0.tasks_list.tail = (q0.dequeue).1.tasks_list := by
      rw [hdtl0]
      rfl
    have hq0work : queueWork q0 = front0.remaining.toNat + queueWork ((q0.dequeue).1) := by
      unfold queueWork
      rw [hdtl0]
      simp
    by_cases hrem : front0.remaining - min quantum front0.remaining = 0
    · rw [turnAux_work_finish quantum rfl hflag2 hq0 hq0wf.1 hsz hpk hrem]
      dsimp only
      refine key _ _ ?_
      have hq2work : queueWork (((q0.setFront {front0 with remaining := front0.remaining - min quantum front0.remaining}).dequeue).1) = queueWork ((q0.dequeue).1) := by
        unfold queueWork
        rw [htail, htl0]
      rw [hq2work, hq0work]
      omega
    · rw [turnAux_work_requeue quantum rfl hflag2 hq0 hq0wf.1 hsz hpk hrem]
      dsimp only
      refine key _ _ ?_
      have hdcap2 : (((q0.setFront {front0 with remaining := front0.remaining - min quantum front0.remaining}).dequeue).1).capacity = q0.capacity := by
        rw [ht1e, hset.2.1]
      have hdsz2 : (((q0.setFront {front0 with remaining := front0.remaining - min quantum front0.remaining}).dequeue).1).size = q0.size - 1 := by
        rw [ht1d, hset.1]
      have hlt : (((q0.setFront {front0 with remaining := front0.remaining - min quantum front0.remaining}).dequeue).1).size < (((q0.setFront {front0 with remaining := front0.remaining - min quantum front0.remaining}).dequeue).1).capacity := by
        rw [hdsz2, hdcap2]
        have ha := hq0wf.1.2.2.2.1
        have hb := hq0wf.1.1
        omega
      have henq := enqueue_spec hdwf1 hlt
        {front0 with remaining := front0.remaining - min quantum front0.remaining}
      have hq3work : queueWork ((((q0.setFront {front0 with remaining := front0.remaining - min quantum front0.remaining}).dequeue).1.enqueue {front0 with remaining := front0.remaining - min quantum front0.remaining}).1) = queueWork ((q0.dequeue).1) + (front0.remaining - min quantum front0.remaining).toNat := by
        unfold queueWork
        rw [henq.2.2.2.2.1, htail, htl0]
        simp
      rw [hq3work, hq0work]
      omega

/-- A turn on an unproductive cursor position only advances the cursor. -/
theorem turn_empty_of_unprod {s : Scheduler} (h : SInv s) (quantum : Int)
    (hn : s.queue_order ≠ []) (hprod : prodAt s 0 = false) :
    (s.doTurn quantum).1 = {s with rr_index := (s.rr_index + 1) % s.queue_order.length} := by
  have hp0 := (prodAt_zero h hn).symm.trans hprod
  have hrr : s.rr_index < s.queue_order.length := h.2.2.2.1 hn
  rw [Bool.or_eq_false_iff] at hp0
  have hsz : (getQ s (s.queue_order.getD s.rr_index "")).size = 0 := by
    have := hp0.1
    simpa using this
  rw [doTurn_eq_turnAux quantum hrr]
  rw [turnAux_empty quantum rfl hp0.2 hsz]

theorem prodAt_shift (s : Scheduler) (k : Nat) :
    prodAt {s with rr_index := (s.rr_index + 1) % s.queue_order.length} k =
      prodAt s (k + 1) := by
  unfold prodAt
  dsimp only
  rw [Nat.mod_add_mod, show s.rr_index + 1 + k = s.rr_index + (k + 1) by omega]
  rfl

theorem measureRR_rr (s : Scheduler) (x : Nat) :
    measureRR {s with rr_index := x} = measureRR s := rfl

theorem iterTurns_add_fst (quantum : Int) :
    ∀ (a b : Nat) (s : Scheduler),
      (iterTurns quantum (a + b) s).1 = (iterTurns quantum b (iterTurns quantum a s).1).1 := by
  intro a
  induction a with
  | zero =>
    intro b s
    rw [Nat.zero_add]
    rfl
  | succ a ih =>
    intro b s
    rw [show a + 1 + b = (a + b) + 1 by omega]
    rw [iterTurns_succ_fst, iterTurns_succ_fst]
    rw [ih]

theorem inv_iterTurns (quantum : Int) :
    ∀ (k : Nat) (s : Scheduler), SInv s → s.queue_order ≠ [] →
      SInv (iterTurns quantum k s).1 := by
  intro k
  induction k with
  | zero => intro s h _; exact h
  | succ k ih =>
    intro s h hn
    rw [iterTurns_succ_fst]
    refine ih _ (inv_doTurn h quantum hn) ?_
    rw [(doTurn_fields s quantum).1]
    exact hn

/-- Within `k+1` turns of a position `k` steps short of a productive queue,
either the measure drops or the state goes quiescent. -/
theorem reach_prod {quantum : Int} (hq1 : 1 ≤ quantum) :
    ∀ (k : Nat) (s : Scheduler), SInv s → s.queue_order ≠ [] → prodAt s k = true →
      ∃ j, 1 ≤ j ∧ j ≤ k + 1 ∧
        (measureRR (iterTurns quantum j s).1 < measureRR s ∨
         (iterTurns quantum j s).1.quiescent = true) := by
  intro k
  induction k with
  | zero =>
    intro s h hn hp
    refine ⟨1, le_refl 1, by omega, Or.inl ?_⟩
    exact turn_measure_prod0 h hq1 hn hp
  | succ k ih =>
    intro s h hn hp
    by_cases hp0 : prodAt s 0 = true
    · exact ⟨1, le_refl 1, by omega, Or.inl (turn_measure_prod0 h hq1 hn hp0)⟩
    · have hp0f : prodAt s 0 = false := by
        revert hp0
        cases prodAt s 0 <;> simp
      have hstep := turn_empty_of_unprod h quantum hn hp0f
      have hinv2 : SInv (s.doTurn quantum).1 := inv_doTurn h quantum hn
      have hord2 : (s.doTurn quantum).1.queue_order ≠ [] := by
        rw [(doTurn_fields s quantum).1]
        exact hn
      have hp2 : prodAt (s.doTurn quantum).1 k = true := by
        rw [hstep, prodAt_shift]
        exact hp
      obtain ⟨j, hj1, hjk, hj⟩ := ih (s.doTurn quantum).1 hinv2 hord2 hp2
      refine ⟨j + 1, by omega, by omega, ?_⟩
      have hiter : (iterTurns quantum (j + 1) s).1 = (iterTurns quantum j (s.doTurn quantum).1).1 :=
        iterTurns_succ_fst quantum j s
      have hms : measureRR (s.doTurn quantum).1 = measureRR s := by
        rw [hstep, measureRR_rr]
      rw [hiter]
      rcases hj with hj | hj
      · exact Or.inl (by omega)
      · exact Or.inr hj

/-- From any well-formed state, a positive quantum reaches quiescence in a
finite number of turns. -/
theorem quiesce_reached {quantum : Int} (hq1 : 1 ≤ quantum) :
    ∀ (b : Nat) (s : Scheduler), SInv s → s.queue_order ≠ [] → measureRR s ≤ b →
      ∃ j, 1 ≤ j ∧ (iterTurns quantum j s).1.quiescent = true := by
  intro b
  induction b with
  | zero =>
    intro s h hn hm
    rcases hqs : s.quiescent with _ | _
    · have := measure_pos_of_not_quiescent h hqs
      omega
    · refine ⟨1, le_refl 1, ?_⟩
      have : (iterTurns quantum 1 s).1 = (s.doTurn quantum).1 := iterTurns_succ_fst quantum 0 s
      rw [this]
      exact quiescent_doTurn h quantum hn hqs
  | succ b ih =>
    intro s h hn hm
    rcases hqs : s.quiescent with _ | _
    · obtain ⟨k, hk, hkp⟩ := not_quiescent_prod h hn hqs
      obtain ⟨j1, hj1, _, hj⟩ := reach_prod hq1 k s h hn hkp
      rcases hj with hj | hj
      · have hinv2 : SInv (iterTurns quantum j1 s).1 := inv_iterTurns quantum j1 s h hn
        have hord2 : (iterTurns quantum j1 s).1.queue_order ≠ [] := by
          rw [iterTurns_order]
          exact hn
        obtain ⟨j2, hj2, hq2⟩ := ih (iterTurns quantum j1 s).1 hinv2 hord2 (by omega)
        refine ⟨j1 + j2, by omega, ?_⟩
        rw [iterTurns_add_fst]
        exact hq2
      · exact ⟨j1, hj1, hj⟩
    · refine ⟨1, le_refl 1, ?_⟩
      have : (iterTurns quantum 1 s).1 = (s.doTurn quantum).1 := iterTurns_succ_fst quantum 0 s
      rw [this]
      exact quiescent_doTurn h quantum hn hqs

/-- Run-to-quiescence terminates from any well-formed state when the quantum
is at least one: some fuel makes the loop exit through a source `break`. -/
theorem run_none_terminates {s : Scheduler} (h : SInv s) {quantum : Int}
    (hq1 : 1 ≤ quantum) : ∃ fuel, (s.run quantum none fuel).2.2 = true := by
  by_cases hn : s.queue_order = []
  · refine ⟨0, ?_⟩
    unfold Scheduler.run
    rw [hn]
    rfl
  · obtain ⟨j, hj1, hjq⟩ := quiesce_reached hq1 (measureRR s) s h hn (le_refl _)
    refine ⟨j + 1, ?_⟩
    unfold Scheduler.run
    dsimp only
    rw [if_neg (by
      cases hc : s.queue_order with
      | nil => exact absurd hc hn
      | cons a l => simp [hc])]
    rw [inv_normRR h]
    exact runLoop_none_completes quantum j s (j + 1) h hn hjq (by omega)

/-! ### Clock lemmas -/

def rejectUnknownItemLine (t : Int) (qid : String) : String :=
  s!"time={t} event=reject queue={qid} reason=unknown_item"

def rejectUnknownQueueLine (t : Int) (qid : String) : String :=
  s!"time={t} event=reject queue={qid} reason=unknown_queue"

def rejectFullLine (t : Int) (qid : String) : String :=
  s!"time={t} event=reject queue={qid} reason=full"

def enqueueLine (t : Int) (qid tid : String) (rem : Nat) : String :=
  s!"time={t} event=enqueue queue={qid} task={tid} remaining={rem}"

theorem next_queue_val_eq {s : Scheduler} (hrr : s.rr_index < s.queue_order.length) :
    s.next_queue_val = some (s.queue_order.getD s.rr_index "") := by
  unfold Scheduler.next_queue_val
  split
  · rename_i heq
    rw [heq] at hrr
    simp at hrr
  · dsimp only
    rw [if_neg (by omega)]

theorem create_queue_time (s : Scheduler) (qid : String) (cap : Nat) :
    (s.create_queue qid cap).1.time = s.time := rfl

theorem enqueue_time (s : Scheduler) (qid item : String) :
    (s.enqueue qid item).1.time = s.time := by
  unfold Scheduler.enqueue
  dsimp only
  repeat' split
  all_goals rfl

theorem mark_skip_time (s : Scheduler) (qid : String) :
    (s.mark_skip qid).1.time = s.time := by
  unfold Scheduler.mark_skip
  dsimp only
  repeat' split
  all_goals rfl

theorem doTurn_time_mono {s : Scheduler} (h : SInv s) {quantum : Int}
    (hq0 : 0 ≤ quantum) (hn : s.queue_order ≠ []) :
    s.time ≤ (s.doTurn quantum).1.time := by
  obtain ⟨h1, h2, h3, h4, h5, h6, h7, h8⟩ := h
  have hrr : s.rr_index < s.queue_order.length := h4 hn
  rw [doTurn_eq_turnAux quantum hrr]
  by_cases hflag : (alookup s.skip_flags (s.queue_order.getD s.rr_index "")).getD false = true
  · rw [turnAux_skip quantum rfl hflag]
  · have hflag2 : (alookup s.skip_flags (s.queue_order.getD s.rr_index "")).getD false = false := by
      revert hflag
      cases (alookup s.skip_flags (s.queue_order.getD s.rr_index "")).getD false <;> simp
    by_cases hsz : (getQ s (s.queue_order.getD s.rr_index "")).size = 0
    · rw [turnAux_empty quantum rfl hflag2 hsz]
    · have hqmem : s.queue_order.getD s.rr_index "" ∈ s.queue_order := getD_mem hrr ""
      obtain ⟨q0, hq0l⟩ := Option.isSome_iff_exists.mp (h1 _ hqmem).1
      have hgq : getQ s (s.queue_order.getD s.rr_index "") = q0 := by
        unfold getQ
        rw [hq0l]
        rfl
      rw [hgq] at hsz
      have hq0wf : QueueWF q0 := (h2 _ (alookup_mem hq0l)).2
      obtain ⟨front0, hfr0, hpk0, _, _, _, hdtl0, _⟩ := dequeue_spec hq0wf.1 hsz
      have hfpos : 1 ≤ front0.remaining := by
        refine hq0wf.2 front0 ?_
        rw [hdtl0]
        exact List.mem_cons_self _ _
      have hw0 : 0 ≤ min quantum front0.remaining := le_min hq0 (by omega)
      by_cases hrem : front0.remaining - min quantum front0.remaining = 0
      · rw [turnAux_work_finish quantum rfl hflag2 hq0l hq0wf.1 hsz hpk0 hrem]
        dsimp only
        omega
      · rw [turnAux_work_requeue quantum rfl hflag2 hq0l hq0wf.1 hsz hpk0 hrem]
        dsimp only
        omega

theorem runLoop_time_mono (quantum : Int) (hq0 : 0 ≤ quantum) :
    ∀ (fuel : Nat) (mt : Option Nat) (s : Scheduler), SInv s →
      s.time ≤ (runLoop quantum mt fuel s).1.time := by
  intro fuel
  induction fuel with
  | zero => intro mt s _; exact le_refl _
  | succ fuel ih =>
    intro mt s h
    unfold runLoop
    by_cases h0 : mt = some 0
    · rw [if_pos h0]
    rw [if_neg h0]
    by_cases hlen : s.queue_order.length = 0
    · rw [if_pos hlen]
    rw [if_neg hlen]
    have hn : s.queue_order ≠ [] := by
      intro hc
      rw [hc] at hlen
      exact hlen rfl
    have hmono := doTurn_time_mono h hq0 hn
    have hinv := inv_doTurn h quantum hn
    dsimp only
    by_cases hqq : (mt = none && (s.doTurn quantum).1.quiescent) = true
    · rw [if_pos hqq]
      exact hmono
    · rw [if_neg hqq]
      exact le_trans hmono (ih _ _ hinv)

theorem run_time_mono {s : Scheduler} (h : SInv s) {quantum : Int} (hq0 : 0 ≤ quantum)
    (steps : Option Int) (fuel : Nat) :
    s.time ≤ (s.run quantum steps fuel).1.time := by
  unfold Scheduler.run
  dsimp only
  by_cases hn : s.queue_order.length = 0
  · rw [if_pos hn]
  rw [if_neg hn]
  rcases steps with _ | st
  · rw [inv_normRR h]
    exact runLoop_time_mono quantum hq0 fuel none s h
  · dsimp only
    by_cases hv : 1 ≤ st ∧ st ≤ (s.queue_order.length : Int)
    · rw [if_pos hv, inv_normRR h]
      exact runLoop_time_mono quantum hq0 fuel (some st.toNat) s h
    · rw [if_neg hv]

/-- Under non-negative quanta, the clock never goes negative. -/
theorem reachNN_time_nonneg {s : Scheduler} (h : ReachNN s) : 0 ≤ s.time := by
  induction h with
  | init => exact le_refl _
  | create qid cap hr hcap ih => rw [create_queue_time]; exact ih
  | enq qid item hr ih => rw [enqueue_time]; exact ih
  | skip qid hr ih => rw [mark_skip_time]; exact ih
  | runs quantum steps fuel hr hq0 ih =>
    rename_i s0
    have hinv : SInv s0 := inv_reach (reachNN_reach hr)
    exact le_trans ih (run_time_mono hinv hq0 steps fuel)

/-! ### Example states used by witnesses and counterexamples -/

/-- One queue `A` of capacity 1, empty. -/
def exA1 : Scheduler := (Scheduler.init.create_queue "A" 1).1

/-- One queue `A` of capacity 1, filled by one `americano` (counter 1). -/
def exA1f : Scheduler := (exA1.enqueue "A" "americano").1

/-- One queue `A` of capacity 1 holding one `tea` task (burst 1). -/
def exA1t : Scheduler := (exA1.enqueue "A" "tea").1

/-- Queues `A` (capacity 2, one `tea` task) and `B` (capacity 1, empty). -/
def exAB : Scheduler :=
  ((((Scheduler.init.create_queue "A" 2).1).create_queue "B" 1).1.enqueue "A" "tea").1

/-! ### Claims -/

/-- C1 (counterexample): a `full` rejection is not state-free. Admitting
`tea` to the full queue `A` emits exactly one `reject` event but mutates the
dispatcher: queue `A`'s id counter moves from 1 to 2, so the state differs
from the original. -/
theorem c1_counterexample :
    (exA1f.enqueue "A" "tea").2 = [rejectFullLine 0 "A"] ∧
    (exA1f.enqueue "A" "tea").1 ≠ exA1f ∧
    alookup exA1f.id_counters "A" = some 1 ∧
    alookup (exA1f.enqueue "A" "tea").1.id_counters "A" = some 2 := by
  refine ⟨by decide, by decide, by decide, by decide⟩

/-- C1 (amended): a rejected admission appends exactly one reject event; the
`unknown_item` and `unknown_queue` paths leave the dispatcher fully
unchanged, while the `full` path leaves the clock, queue contents, order,
skip flags and cursor unchanged but increments the target queue's counter
by one (the source bumps the counter before the capacity check). -/
theorem c1_rejection_purity (s : Scheduler) (qid item : String) :
    (alookup s.menu item = none →
      s.enqueue qid item = (s, [rejectUnknownItemLine s.time qid])) ∧
    (∀ burst : Nat, alookup s.menu item = some burst → alookup s.queues qid = none →
      s.enqueue qid item = (s, [rejectUnknownQueueLine s.time qid])) ∧
    (∀ (burst : Nat) (q : QueueRR) (c : Nat),
      alookup s.menu item = some burst → alookup s.queues qid = some q →
      alookup s.id_counters qid = some c → q.capacity ≤ q.size →
      s.enqueue qid item =
        ({s with id_counters := aset s.id_counters qid (c + 1)},
         [rejectFullLine s.time qid])) := by
  refine ⟨?_, ?_, ?_⟩
  · intro h
    unfold Scheduler.enqueue
    rw [h]
    rfl
  · intro burst hm hq
    unfold Scheduler.enqueue
    rw [hm]
    dsimp only
    rw [if_neg (by rw [hq]; simp)]
    rfl
  · intro burst q c hm hq hc hfull
    unfold Scheduler.enqueue
    rw [hm]
    dsimp only
    rw [if_pos (by rw [hq]; rfl)]
    have hgq : getQ s qid = q := by
      unfold getQ
      rw [hq]
      rfl
    rw [hgq, hc]
    unfold QueueRR.enqueue
    rw [if_pos hfull]
    rw [if_neg (by simp)]
    rfl

/-- C1 witness: the amended theorem applied at the concrete full-queue
scenario. -/
theorem c1_rejection_purity_witness :
    alookup exA1f.menu "tea" = some 1 ∧
    alookup exA1f.id_counters "A" = some 1 ∧
    (exA1f.enqueue "A" "tea").2 = [rejectFullLine 0 "A"] ∧
    alookup (exA1f.enqueue "A" "tea").1.id_counters "A" = some 2 := by
  have h := (c1_rejection_purity exA1f "A" "tea").2.2 1
    ⟨"A", 1, [some ⟨"A-001", (2 : Int)⟩], 0, 1⟩ 1
    (by decide) (by decide) (by decide) (by decide)
  refine ⟨by decide, by decide, ?_, ?_⟩
  · rw [h]
    decide
  · rw [h]
    decide

/-- C2 (counterexample): in a work turn the snapshot is taken after the
cursor advance, so its next-queue line names the successor queue `B`, not
the visited queue `A`: the log of `run 1 1` on a task in `A` contains
`next=B` and no `next=A` line. -/
theorem c2_counterexample :
    (exAB.run 1 (some 1) 2).2.1 =
      ["time=0 event=run queue=A", "time=1 event=finish queue=A id=A-001",
       "display time=1 next=B",
       "display menu=[americano:2,cappuccino:3,hot_chocolate:4,latte:3,macchiato:2,mocha:4,tea:1]",
       "display A [0/2] -> []", "display B [0/1] -> []"] ∧
    "display time=1 next=A" ∉ (exAB.run 1 (some 1) 2).2.1 := by
  have h1 : (exAB.run 1 (some 1) 2).2.1 =
      ["time=0 event=run queue=A", "time=1 event=finish queue=A id=A-001",
       "display time=1 next=B",
       "display menu=[americano:2,cappuccino:3,hot_chocolate:4,latte:3,macchiato:2,mocha:4,tea:1]",
       "display A [0/2] -> []", "display B [0/1] -> []"] := by decide
  refine ⟨h1, ?_⟩
  rw [h1]
  decide

/-- C2 (amended): in skip and empty turns the snapshot is appended before
the cursor advances, so its next-queue line names the visited queue; in a
work turn the cursor advances first and the snapshot is taken afterwards,
so its next-queue line names the next queue in round-robin order. In all
branches the cursor then stands one position further, modulo the number of
queues. -/
theorem c2_snapshot_order (s : Scheduler) (quantum : Int) (qid : String)
    (hrr : s.rr_index < s.queue_order.length)
    (hqid : s.queue_order.getD s.rr_index "" = qid) :
    ((alookup s.skip_flags qid).getD false = true →
      s.doTurn quantum =
        ({ s with skip_flags := aset s.skip_flags qid false,
                  rr_index := (s.rr_index + 1) % s.queue_order.length },
         runLine s.time qid ::
           Scheduler.display { s with skip_flags := aset s.skip_flags qid false }) ∧
      Scheduler.next_queue_val { s with skip_flags := aset s.skip_flags qid false } =
        some qid) ∧
    ((alookup s.skip_flags qid).getD false = false → (getQ s qid).size = 0 →
      s.doTurn quantum =
        ({ s with rr_index := (s.rr_index + 1) % s.queue_order.length },
         runLine s.time qid :: s.display) ∧
      s.next_queue_val = some qid) ∧
    (∀ (q : QueueRR) (front : Task), (alookup s.skip_flags qid).getD false = false →
      alookup s.queues qid = some q → BufWF q → q.size ≠ 0 → q.peek = some front →
      ((s.doTurn quantum).2 =
        runLine s.time qid ::
          (if front.remaining - min quantum front.remaining = 0 then
            finishLine (s.time + min quantum front.remaining) qid front.task_id
          else
            workLine (s.time + min quantum front.remaining) qid front.task_id
              (front.remaining - min quantum front.remaining)) ::
          Scheduler.display (s.doTurn quantum).1) ∧
      (s.doTurn quantum).1.rr_index = (s.rr_index + 1) % s.queue_order.length ∧
      Scheduler.next_queue_val (s.doTurn quantum).1 =
        some (s.queue_order.getD ((s.rr_index + 1) % s.queue_order.length) "")) := by
  have hnl : 0 < s.queue_order.length := by omega
  refine ⟨?_, ?_, ?_⟩
  · intro hflag
    rw [doTurn_eq_turnAux quantum hrr, turnAux_skip quantum hqid hflag]
    refine ⟨rfl, ?_⟩
    rw [next_queue_val_eq (s := { s with skip_flags := aset s.skip_flags qid false }) hrr]
    exact congrArg some hqid
  · intro hflag hsz
    rw [doTurn_eq_turnAux quantum hrr, turnAux_empty quantum hqid hflag hsz]
    exact ⟨rfl, by rw [next_queue_val_eq hrr]; exact congrArg some hqid⟩
  · intro q front hflag hq hwf hsz hpk
    have hnext : ∀ (qX : QueueRR) (tt : Int),
        Scheduler.next_queue_val { s with
          time := tt,
          queues := aset s.queues qid qX,
          rr_index := (s.rr_index + 1) % s.queue_order.length } =
        some (s.queue_order.getD ((s.rr_index + 1) % s.queue_order.length) "") := by
      intro qX tt
      rw [next_queue_val_eq (Nat.mod_lt _ hnl)]
    by_cases hrem : front.remaining - min quantum front.remaining = 0
    · rw [doTurn_eq_turnAux quantum hrr,
        turnAux_work_finish quantum hqid hflag hq hwf hsz hpk hrem]
      dsimp only
      rw [if_pos hrem]
      exact ⟨rfl, rfl, hnext _ _⟩
    · rw [doTurn_eq_turnAux quantum hrr,
        turnAux_work_requeue quantum hqid hflag hq hwf hsz hpk hrem]
      dsimp only
      rw [if_neg hrem]
      exact ⟨rfl, rfl, hnext _ _⟩

/-- C2 witness: the amended theorem at the concrete two-queue work turn —
the snapshot of the turn names the successor `B`. -/
theorem c2_snapshot_order_witness :
    (exAB.doTurn 1).2 =
      runLine 0 "A" ::
        finishLine 1 "A" "A-001" :: Scheduler.display (exAB.doTurn 1).1 ∧
    Scheduler.next_queue_val (exAB.doTurn 1).1 = some "B" := by
  have h := (c2_snapshot_order exAB 1 "A" (by decide) (by decide)).2.2
    ⟨"A", 2, [some ⟨"A-001", (1 : Int)⟩, none], 0, 1⟩ ⟨"A-001", (1 : Int)⟩
    (by decide) (by decide) (by decide) (by decide) (by decide)
  obtain ⟨hlog, hrra, hnext⟩ := h
  refine ⟨?_, ?_⟩
  · rw [hlog]
    decide
  · rw [hnext]
    decide

/-- C3 (counterexample): with a negative quantum the clock goes negative:
after `run(-1, 1)` on a queue holding one `tea` task the reachable state
has `time = -1`, refuting non-negativity and monotonicity for arbitrary
integer arguments. -/
theorem c3_counterexample :
    Reach (exA1t.run (-1) (some 1) 2).1 ∧ (exA1t.run (-1) (some 1) 2).1.time = -1 := by
  constructor
  · exact Reach.runs (-1) (some 1) 2
      (Reach.enq "A" "tea" (Reach.create "A" 1 Reach.init (by decide)))
  · decide

/-- C3 (amended): when every `run` uses a non-negative quantum the clock is
a non-negative integer and non-decreasing: admission, creation and skip
requests never move it, a whole `run` never decreases it, and a single turn
leaves it unchanged in the skip and empty branches and advances it by
exactly `min quantum remaining` in the work branch. -/
theorem c3_time_monotone :
    (∀ s : Scheduler, ReachNN s → 0 ≤ s.time) ∧
    (∀ (s : Scheduler) (qid : String) (cap : Nat) (item : String),
      (s.create_queue qid cap).1.time = s.time ∧
      (s.enqueue qid item).1.time = s.time ∧
      (s.mark_skip qid).1.time = s.time) ∧
    (∀ (s : Scheduler) (quantum : Int) (steps : Option Int) (fuel : Nat), SInv s →
      0 ≤ quantum → s.time ≤ (s.run quantum steps fuel).1.time) ∧
    (∀ (s : Scheduler) (quantum : Int) (qid : String),
      s.queue_order.getD s.rr_index "" = qid →
      s.rr_index < s.queue_order.length →
      (((alookup s.skip_flags qid).getD false = true →
        (s.doTurn quantum).1.time = s.time) ∧
       ((alookup s.skip_flags qid).getD false = false → (getQ s qid).size = 0 →
        (s.doTurn quantum).1.time = s.time) ∧
       (∀ (q : QueueRR) (front : Task), (alookup s.skip_flags qid).getD false = false →
         alookup s.queues qid = some q → BufWF q → q.size ≠ 0 → q.peek = some front →
         (s.doTurn quantum).1.time = s.time + min quantum front.remaining))) := by
  refine ⟨fun s h => reachNN_time_nonneg h,
    fun s qid cap item => ⟨create_queue_time s qid cap, enqueue_time s qid item,
      mark_skip_time s qid⟩,
    fun s quantum steps fuel h hq0 => run_time_mono h hq0 steps fuel, ?_⟩
  intro s quantum qid hqid hrr
  refine ⟨?_, ?_, ?_⟩
  · intro hflag
    rw [doTurn_eq_turnAux quantum hrr, turnAux_skip quantum hqid hflag]
  · intro hflag hsz
    rw [doTurn_eq_turnAux quantum hrr, turnAux_empty quantum hqid hflag hsz]
  · intro q front hflag hq hwf hsz hpk
    by_cases hrem : front.remaining - min quantum front.remaining = 0
    · rw [doTurn_eq_turnAux quantum hrr,
        turnAux_work_finish quantum hqid hflag hq hwf hsz hpk hrem]
    · rw [doTurn_eq_turnAux quantum hrr,
        turnAux_work_requeue quantum hqid hflag hq hwf hsz hpk hrem]

/-- C3 witness: the amended theorem at a concrete run with quantum 1. -/
theorem c3_time_monotone_witness :
    0 ≤ (exA1t.run 1 none 3).1.time ∧ exA1t.time ≤ (exA1t.run 1 none 3).1.time := by
  refine ⟨?_, ?_⟩
  · exact c3_time_monotone.1 _ (ReachNN.runs 1 none 3
      (ReachNN.enq "A" "tea" (ReachNN.create "A" 1 ReachNN.init (by decide)))
      (by decide))
  · exact c3_time_monotone.2.2.1 exA1t 1 none 3 (by decide) (by decide)

/-- C4: `run` on a dispatcher with zero queues returns immediately with no
events and no state change; with at least one queue, a `steps` outside
`[1, number of queues]` yields exactly one `invalid_steps` error event and
the identical state back, with no turns performed. -/
theorem c4_invalid_steps (s : Scheduler) (quantum : Int) (fuel : Nat) :
    (s.queue_order = [] → ∀ steps : Option Int,
      s.run quantum steps fuel = (s, [], true)) ∧
    (∀ st : Int, s.queue_order ≠ [] → ¬ (1 ≤ st ∧ st ≤ (s.queue_order.length : Int)) →
      s.run quantum (some st) fuel = (s, [errorLine s.time], true)) := by
  constructor
  · intro hn steps
    unfold Scheduler.run
    rw [hn]
    rfl
  · intro st hn hv
    have hlen : ¬ s.queue_order.length = 0 := by
      cases hc : s.queue_order with
      | nil => exact absurd hc hn
      | cons a l => simp [hc]
    unfold Scheduler.run
    dsimp only
    rw [if_neg hlen]
    rw [if_neg hv]
    rfl

/-- C4 witness: the theorem at the empty dispatcher and at a concrete
out-of-range `steps`. -/
theorem c4_invalid_steps_witness :
    Scheduler.init.run 1 (some 1) 5 = (Scheduler.init, [], true) ∧
    exA1t.run 1 (some 2) 5 = (exA1t, [errorLine 0], true) := by
  refine ⟨?_, ?_⟩
  · exact (c4_invalid_steps Scheduler.init 1 5).1 (by decide) (some 1)
  · have h := (c4_invalid_steps exA1t 1 5).2 2 (by decide) (by decide)
    rw [h]
    decide

/-- Queue `A` of capacity 2 holding one `latte` task (burst 3). -/
def exA2l : Scheduler := ((Scheduler.init.create_queue "A" 2).1.enqueue "A" "latte").1

/-- C5: in a work turn (visited queue non-empty, skip flag clear), with
`w = min(quantum, remaining)` the clock advances by exactly `w` and exactly
one of two things happens: if the head task's remaining reaches 0 it is
removed and one `finish` event is emitted, otherwise the task moves from
head to tail with remaining decremented by `w` and one `work` event is
emitted — never both in one turn. -/
theorem c5_work_turn (s : Scheduler) (quantum : Int) (qid : String) (q : QueueRR)
    (front : Task)
    (hrr : s.rr_index < s.queue_order.length)
    (hqid : s.queue_order.getD s.rr_index "" = qid)
    (hflag : (alookup s.skip_flags qid).getD false = false)
    (hq : alookup s.queues qid = some q)
    (hwf : BufWF q)
    (hsz : q.size ≠ 0)
    (hpk : q.peek = some front) :
    (s.doTurn quantum).1.time = s.time + min quantum front.remaining ∧
    (front.remaining - min quantum front.remaining = 0 →
      (getQ (s.doTurn quantum).1 qid).tasks_list = q.tasks_list.tail ∧
      (s.doTurn quantum).2 =
        runLine s.time qid ::
          finishLine (s.time + min quantum front.remaining) qid front.task_id ::
          Scheduler.display (s.doTurn quantum).1) ∧
    (front.remaining - min quantum front.remaining ≠ 0 →
      (getQ (s.doTurn quantum).1 qid).tasks_list =
        q.tasks_list.tail ++
          [{front with remaining := front.remaining - min quantum front.remaining}] ∧
      (s.doTurn quantum).2 =
        runLine s.time qid ::
          workLine (s.time + min quantum front.remaining) qid front.task_id
            (front.remaining - min quantum front.remaining) ::
          Scheduler.display (s.doTurn quantum).1) := by
  have hset := setFront_spec hwf hsz
    {front with remaining := front.remaining - min quantum front.remaining}
  have hsz1 : (q.setFront {front with remaining := front.remaining - min quantum front.remaining}).size ≠ 0 := by
    rw [hset.1]
    exact hsz
  obtain ⟨t1, ht1a, ht1b, ht1c, ht1d, ht1e, hdtl1, hdwf1⟩ := dequeue_spec hset.2.2.2.2 hsz1
  have htail : ((q.setFront {front with remaining := front.remaining - min quantum front.remaining}).dequeue).1.tasks_list = q.tasks_list.tail := by
    have hx := hset.2.2.2.1
    rw [hx] at hdtl1
    injection hdtl1 with he1 he2
    exact he2.symm
  by_cases hrem : front.remaining - min quantum front.remaining = 0
  · rw [doTurn_eq_turnAux quantum hrr,
      turnAux_work_finish quantum hqid hflag hq hwf hsz hpk hrem]
    dsimp only
    refine ⟨rfl, fun _ => ⟨?_, rfl⟩, fun hcon => absurd hrem hcon⟩
    have hget : getQ { s with
        time := s.time + min quantum front.remaining,
        queues := aset s.queues qid
          ((q.setFront {front with remaining := front.remaining - min quantum front.remaining}).dequeue).1,
        rr_index := (s.rr_index + 1) % s.queue_order.length } qid =
        ((q.setFront {front with remaining := front.remaining - min quantum front.remaining}).dequeue).1 := by
      unfold getQ
      dsimp only
      rw [alookup_aset_self]
      rfl
    rw [hget, htail]
  · rw [doTurn_eq_turnAux quantum hrr,
      turnAux_work_requeue quantum hqid hflag hq hwf hsz hpk hrem]
    dsimp only
    refine ⟨rfl, fun hcon => absurd hcon hrem, fun _ => ⟨?_, rfl⟩⟩
    have hlt : (((q.setFront {front with remaining := front.remaining - min quantum front.remaining}).dequeue).1).size < (((q.setFront {front with remaining := front.remaining - min quantum front.remaining}).dequeue).1).capacity := by
      rw [ht1d, ht1e, hset.1, hset.2.1]
      have ha := hwf.2.2.2.1
      have hb := hwf.1
      omega
    have henq := enqueue_spec hdwf1 hlt
      {front with remaining := front.remaining - min quantum front.remaining}
    have hget : ∀ (qX : QueueRR), getQ { s with
        time := s.time + min quantum front.remaining,
        queues := aset s.queues qid qX,
        rr_index := (s.rr_index + 1) % s.queue_order.length } qid = qX := by
      intro qX
      unfold getQ
      dsimp only
      rw [alookup_aset_self]
      rfl
    rw [hget, henq.2.2.2.2.1, htail]

/-- C5 witness: the theorem at a concrete partial work turn (latte, burst 3,
quantum 1). -/
theorem c5_work_turn_witness :
    (exA2l.doTurn 1).1.time = 1 ∧
    (getQ (exA2l.doTurn 1).1 "A").tasks_list = [⟨"A-001", (2 : Int)⟩] ∧
    (exA2l.doTurn 1).2 =
      runLine 0 "A" :: workLine 1 "A" "A-001" 2 ::
        Scheduler.display (exA2l.doTurn 1).1 := by
  have h := c5_work_turn exA2l 1 "A"
    ⟨"A", 2, [some ⟨"A-001", (3 : Int)⟩, none], 0, 1⟩ ⟨"A-001", (3 : Int)⟩
    (by decide) (by decide) (by decide) (by decide) (by decide) (by decide) (by decide)
  obtain ⟨ht, _, hw⟩ := h
  obtain ⟨htasks, hlog⟩ := hw (by decide)
  refine ⟨by rw [ht]; decide, ?_, ?_⟩
  · rw [htasks]
    decide
  · rw [hlog]
    decide

/-- C6: with `steps` in `[1, number of queues]` (and enough fuel), `run`
performs exactly `steps` turns, matching the `steps`-fold turn iteration;
with `steps` omitted it stops exactly at the first completed turn after
which all queues are empty and all skip flags are clear; and from any
well-formed state with quantum at least 1, run-to-quiescence terminates
(some fuel makes the loop exit through a source break). -/
theorem c6_termination :
    (∀ (s : Scheduler) (quantum st : Int) (fuel : Nat), s.queue_order ≠ [] →
      1 ≤ st → st ≤ (s.queue_order.length : Int) → st.toNat < fuel →
      s.run quantum (some st) fuel =
        ((iterTurns quantum st.toNat (normRR s)).1,
         (iterTurns quantum st.toNat (normRR s)).2, true)) ∧
    (∀ (s : Scheduler) (quantum : Int) (j fuel : Nat), s.queue_order ≠ [] → 1 ≤ j →
      (iterTurns quantum j (normRR s)).1.quiescent = true →
      (∀ i, 1 ≤ i → i < j → (iterTurns quantum i (normRR s)).1.quiescent = false) →
      j ≤ fuel →
      s.run quantum none fuel =
        ((iterTurns quantum j (normRR s)).1, (iterTurns quantum j (normRR s)).2, true)) ∧
    (∀ (s : Scheduler) (quantum : Int), SInv s → 1 ≤ quantum →
      ∃ fuel, (s.run quantum none fuel).2.2 = true) := by
  have hordn : ∀ s : Scheduler, s.queue_order ≠ [] → (normRR s).queue_order ≠ [] := by
    intro s hn
    rw [(normRR_fields s).1]
    exact hn
  have hlen : ∀ s : Scheduler, s.queue_order ≠ [] → ¬ s.queue_order.length = 0 := by
    intro s hn
    cases hc : s.queue_order with
    | nil => exact absurd hc hn
    | cons a l => simp [hc]
  refine ⟨?_, ?_, fun s quantum h hq1 => run_none_terminates h hq1⟩
  · intro s quantum st fuel hn h1 h2 hf
    unfold Scheduler.run
    dsimp only
    rw [if_neg (hlen s hn)]
    rw [if_pos ⟨h1, h2⟩]
    exact runLoop_steps quantum st.toNat fuel (normRR s) (hordn s hn) hf
  · intro s quantum j fuel hn h1 hq hmin hf
    unfold Scheduler.run
    dsimp only
    rw [if_neg (hlen s hn)]
    exact runLoop_none quantum j (normRR s) fuel (hordn s hn) h1 hq hmin hf

/-- C6 witness: the theorem at a one-queue, one-task state with quantum 1:
one bounded turn, and termination of run-to-quiescence. -/
theorem c6_termination_witness :
    exA1t.run 1 (some 1) 2 =
      ((iterTurns 1 1 (normRR exA1t)).1, (iterTurns 1 1 (normRR exA1t)).2, true) ∧
    ∃ fuel, (exA1t.run 1 none fuel).2.2 = true := by
  refine ⟨?_, c6_termination.2.2 exA1t 1 (by decide) (by decide)⟩
  exact c6_termination.1 exA1t 1 1 2 (by decide) (by decide) (by decide) (by decide)

/-- C7: `requestSkip` always emits exactly one skip event; for an unknown
queue id it changes nothing; for a known id it sets exactly that skip flag;
it is idempotent before consumption; and the turn that visits a flagged
queue clears the flag in that single zero-time turn without touching any
queue or the clock. -/
theorem c7_request_skip :
    (∀ (s : Scheduler) (qid : String), (s.mark_skip qid).2 = [skipLine s.time qid]) ∧
    (∀ (s : Scheduler) (qid : String), alookup s.skip_flags qid = none →
      (s.mark_skip qid).1 = s) ∧
    (∀ (s : Scheduler) (qid : String) (v : Bool), alookup s.skip_flags qid = some v →
      (s.mark_skip qid).1 = {s with skip_flags := aset s.skip_flags qid true}) ∧
    (∀ (s : Scheduler) (qid : String),
      ((s.mark_skip qid).1.mark_skip qid).1 = (s.mark_skip qid).1) ∧
    (∀ (s : Scheduler) (quantum : Int) (qid : String),
      s.rr_index < s.queue_order.length →
      s.queue_order.getD s.rr_index "" = qid →
      (alookup s.skip_flags qid).getD false = true →
      (s.doTurn quantum).1 =
        { s with skip_flags := aset s.skip_flags qid false,
                 rr_index := (s.rr_index + 1) % s.queue_order.length } ∧
      alookup (s.doTurn quantum).1.skip_flags qid = some false ∧
      (s.doTurn quantum).1.time = s.time ∧
      (s.doTurn quantum).1.queues = s.queues) := by
  have hemit : ∀ (s : Scheduler) (qid : String),
      (s.mark_skip qid).2 = [skipLine s.time qid] := by
    intro s qid
    unfold Scheduler.mark_skip
    dsimp only
    split
    all_goals rfl
  have hnoneCase : ∀ (s : Scheduler) (qid : String), alookup s.skip_flags qid = none →
      (s.mark_skip qid).1 = s := by
    intro s qid h
    unfold Scheduler.mark_skip
    dsimp only
    rw [if_neg (by rw [h]; simp)]
  have hsomeCase : ∀ (s : Scheduler) (qid : String) (v : Bool),
      alookup s.skip_flags qid = some v →
      (s.mark_skip qid).1 = {s with skip_flags := aset s.skip_flags qid true} := by
    intro s qid v h
    unfold Scheduler.mark_skip
    dsimp only
    rw [if_pos (by rw [h]; rfl)]
  refine ⟨hemit, hnoneCase, hsomeCase, ?_, ?_⟩
  · intro s qid
    rcases hl : alookup s.skip_flags qid with _ | v
    · rw [hnoneCase s qid hl, hnoneCase s qid hl]
    · rw [hsomeCase s qid v hl]
      rw [hsomeCase _ qid true (by dsimp only; rw [alookup_aset_self])]
      dsimp only
      rw [aset_aset]
  · intro s quantum qid hrr hqid hflag
    rw [doTurn_eq_turnAux quantum hrr, turnAux_skip quantum hqid hflag]
    exact ⟨rfl, by dsimp only; rw [alookup_aset_self], rfl, rfl⟩

/-- C7 witness: the theorem at a concrete state (queue `A` flagged). -/
theorem c7_request_skip_witness :
    ((exA1t.mark_skip "A").1.mark_skip "A").1 = (exA1t.mark_skip "A").1 ∧
    (exA1t.mark_skip "A").2 = [skipLine 0 "A"] ∧
    alookup (((exA1t.mark_skip "A").1.doTurn 1).1).skip_flags "A" = some false ∧
    ((exA1t.mark_skip "A").1.doTurn 1).1.time = 0 := by
  have h5 := c7_request_skip.2.2.2.2 (exA1t.mark_skip "A").1 1 "A"
    (by decide) (by decide) (by decide)
  refine ⟨c7_request_skip.2.2.2.1 exA1t "A", ?_, h5.2.1, ?_⟩
  · rw [c7_request_skip.1 exA1t "A"]
    decide
  · rw [h5.2.2.1]
    decide

/-- C8: a successful admission increments the target queue's counter by
exactly one, creates a task with id `<queueId>-<counter padded to 3
digits>` and remaining equal to the menu cost, appends it at the logical
tail, emits exactly one `enqueue` event with that id and remaining, and
leaves the clock unchanged. -/
theorem c8_admission (s : Scheduler) (qid item : String) (burst : Nat) (q : QueueRR)
    (c : Nat)
    (hm : alookup s.menu item = some burst)
    (hq : alookup s.queues qid = some q)
    (hc : alookup s.id_counters qid = some c)
    (hwf : BufWF q)
    (hlt : q.size < q.capacity) :
    s.enqueue qid item =
      ({ s with
         id_counters := aset s.id_counters qid (c + 1),
         queues := aset s.queues qid
           (q.enqueue ⟨qid ++ "-" ++ pad3 (c + 1), (burst : Int)⟩).1 },
       [enqueueLine s.time qid (qid ++ "-" ++ pad3 (c + 1)) burst]) ∧
    ((q.enqueue ⟨qid ++ "-" ++ pad3 (c + 1), (burst : Int)⟩).1).tasks_list =
      q.tasks_list ++ [⟨qid ++ "-" ++ pad3 (c + 1), (burst : Int)⟩] := by
  have hes := enqueue_spec hwf hlt ⟨qid ++ "-" ++ pad3 (c + 1), (burst : Int)⟩
  refine ⟨?_, hes.2.2.2.2.1⟩
  unfold Scheduler.enqueue
  rw [hm]
  dsimp only
  rw [if_pos (by rw [hq]; rfl)]
  have hgq : getQ s qid = q := by
    unfold getQ
    rw [hq]
    rfl
  rw [hgq, hc]
  simp only [Option.getD_some]
  rw [hes.1]
  rfl

/-- C8 witness: the first admission to the fresh queue `A` gets id `A-001`
and remaining 2 (`americano`). -/
theorem c8_admission_witness :
    (exA1.enqueue "A" "americano").2 = [enqueueLine 0 "A" "A-001" 2] ∧
    alookup (exA1.enqueue "A" "americano").1.id_counters "A" = some 1 ∧
    (exA1.enqueue "A" "americano").1.time = 0 := by
  have h := c8_admission exA1 "A" "americano" 2 (QueueRR.mkEmpty "A" 1) 0
    (by decide) (by decide) (by decide) (by decide) (by decide)
  refine ⟨?_, ?_, ?_⟩
  · rw [h.1]
    decide
  · rw [h.1]
    decide
  · rw [h.1]
    decide

/-- C9: in every reachable state every queue satisfies `size ≤ capacity`,
and `enqueue` on a queue whose size equals its capacity fails and returns
the queue unchanged. -/
theorem c9_capacity_invariant :
    (∀ s : Scheduler, Reach s → ∀ (qid : String) (q : QueueRR),
      alookup s.queues qid = some q → q.size ≤ q.capacity) ∧
    (∀ (q : QueueRR) (t : Task), q.size = q.capacity → q.enqueue t = (q, false)) := by
  constructor
  · intro s hr qid q hq
    have hwf := ((inv_reach hr).2.1 _ (alookup_mem hq)).2
    exact hwf.1.2.2.2.1
  · intro q t h
    unfold QueueRR.enqueue
    rw [if_pos (by omega)]

/-- C9 witness: the theorem at the reachable full-queue state and a
concrete full enqueue. -/
theorem c9_capacity_invariant_witness :
    (⟨"A", 1, [some ⟨"A-001", (2 : Int)⟩], 0, 1⟩ : QueueRR).size ≤
      (⟨"A", 1, [some ⟨"A-001", (2 : Int)⟩], 0, 1⟩ : QueueRR).capacity ∧
    (⟨"A", 1, [some ⟨"A-001", (2 : Int)⟩], 0, 1⟩ : QueueRR).enqueue ⟨"X", (1 : Int)⟩ =
      (⟨"A", 1, [some ⟨"A-001", (2 : Int)⟩], 0, 1⟩, false) := by
  constructor
  · exact c9_capacity_invariant.1 exA1f
      (Reach.enq "A" "americano" (Reach.create "A" 1 Reach.init (by decide)))
      "A" ⟨"A", 1, [some ⟨"A-001", (2 : Int)⟩], 0, 1⟩ (by decide)
  · exact c9_capacity_invariant.2 ⟨"A", 1, [some ⟨"A-001", (2 : Int)⟩], 0, 1⟩
      ⟨"X", (1 : Int)⟩ (by decide)

/-- C10: for every reachable state and non-empty queue, the peek succeeds,
the dequeue after the in-place head mutation returns that task, and the
re-enqueue of a partially serviced task always succeeds (one slot was just
freed) — so the source's asserts cannot fire and its defensive finish
branch is unreachable. -/
theorem c10_work_assertions :
    ∀ s : Scheduler, Reach s → ∀ (qid : String) (q : QueueRR),
      alookup s.queues qid = some q → q.size ≠ 0 →
      ((q.peek).isSome = true ∧
       (∀ t2 : Task, ((q.setFront t2).dequeue).2 = some t2) ∧
       (∀ t2 t3 : Task, (((q.setFront t2).dequeue).1.enqueue t3).2 = true)) := by
  intro s hr qid q hq hsz
  have hwf := ((inv_reach hr).2.1 _ (alookup_mem hq)).2
  obtain ⟨t, ht⟩ := front_slot_some hwf.1 hsz
  refine ⟨by rw [peek_eq_front hsz, ht]; rfl, ?_, ?_⟩
  · intro t2
    exact (setFront_dequeue hwf.1 hsz t2).1
  · intro t2 t3
    have hd := setFront_dequeue hwf.1 hsz t2
    have hcap := hwf.1.1
    have hle := hwf.1.2.2.2.1
    unfold QueueRR.enqueue
    rw [if_neg (by rw [hd.2.1, hd.2.2]; omega)]

/-- C10 witness: the theorem at the reachable full-queue state. -/
theorem c10_work_assertions_witness :
    ((⟨"A", 1, [some ⟨"A-001", (2 : Int)⟩], 0, 1⟩ : QueueRR).peek).isSome = true ∧
    (((⟨"A", 1, [some ⟨"A-001", (2 : Int)⟩], 0, 1⟩ : QueueRR).setFront
        ⟨"A-001", (1 : Int)⟩).dequeue).2 = some ⟨"A-001", (1 : Int)⟩ ∧
    ((((⟨"A", 1, [some ⟨"A-001", (2 : Int)⟩], 0, 1⟩ : QueueRR).setFront
        ⟨"A-001", (1 : Int)⟩).dequeue).1.enqueue ⟨"A-001", (1 : Int)⟩).2 = true := by
  have h := c10_work_assertions exA1f
    (Reach.enq "A" "americano" (Reach.create "A" 1 Reach.init (by decide)))
    "A" ⟨"A", 1, [some ⟨"A-001", (2 : Int)⟩], 0, 1⟩ (by decide) (by decide)
  exact ⟨h.1, h.2.1 ⟨"A-001", (1 : Int)⟩, h.2.2 ⟨"A-001", (1 : Int)⟩ ⟨"A-001", (1 : Int)⟩⟩

end Sched
